import Mathlib

/-
Shallow embedding of the Argonaut command-line parsing engine
(src/argonaut/commands.py, src/argonaut/arguments.py, src/argonaut/faults.py)
used to settle the claims C1..C10.

Conventions of the embedding
- Python strings are Lean String; deques are Lean List consumed at the head.
- The per-pass fault sink (self._faults) is modelled as an accumulating list:
  Command.trigger in deferred mode appends to the sink, and every theorem
  about a fault being raised or recorded is stated as membership in that list.
  The immediate (non-deferred) dispatch policy of Command.trigger together
  with CommandException.__trigger__ and CommandExit.__trigger__ is modelled
  separately (claim C3) as a small effect semantics.
- Bound callbacks of argument specs are opaque: Command._handle is modelled
  as appending the argument identity to an event trace (Python object
  identity becomes a Nat id).  Delegated warnings and errors raised by user
  callbacks are outside the claims and are not modelled.
- Presentation text (routes, message copy, rich rendering) is not modelled,
  except that the unknown-switch hint keeps whether it embeds a
  fuzzy-matched suggestion and which one (claim C7).
- os.pathsep is the POSIX value, a colon.
-/

namespace Argonaut

/-- Arity of a value-bearing argument (the nargs field after
apos-free sanitization in arguments.py: coalesce(Unset) is None). -/
inductive Arity where
  | single       -- nargs is None (default)
  | optional     -- nargs is the question mark
  | zeroOrMore   -- nargs is the star
  | oneOrMore    -- nargs is the plus
  | fixed (n : Nat)  -- nargs is an integer, sanitizer enforces n >= 1
  | remainder    -- nargs is Ellipsis (cardinals only)
  deriving DecidableEq, Repr

/-- Values stored in the parser namespace.  Converters are modelled as
String to Option String, so converted payloads stay strings; a flag stores
True, a default may be None or any modelled value. -/
inductive Value where
  | vNone
  | vStr (s : String)
  | vList (l : List String)
  | vBool (b : Bool)
  deriving DecidableEq, Repr

/-- Kind of an argument spec: Cardinal, Option or Flag (arguments.py). -/
inductive ArgKind where
  | cardinal
  | option
  | flag
  deriving DecidableEq, Repr

/-- Canonical fault identities from faults.py (class names).  Warnings and
exceptions share the type; FaultKind.isWarning tells them apart. -/
inductive FaultKind where
  | malformedToken
  | unknownSwitch
  | flagAssignment
  | unexpectedCardinal
  | duplicatedSwitch
  | missingInlineValue
  | optionValueRequired
  | inlineExtraValues
  | atLeastOneValueRequired
  | notEnoughValues
  | delegatedError
  | emptyValue
  | invalidChoice
  | standaloneSwitch
  | missingCardinals
  | unparsedTokens
  | emptyOptionValue      -- EmptyOptionValueWarning
  | deprecatedArgument    -- DeprecatedArgumentWarning
  | delegatedWarning      -- DelegatedCommandWarning
  deriving DecidableEq, Repr

/-- Classes deriving CommandWarning in faults.py; every other fault class
derives CommandException. -/
def FaultKind.isWarning : FaultKind → Bool
  | .emptyOptionValue => true
  | .deprecatedArgument => true
  | .delegatedWarning => true
  | _ => false

/-- One recorded fault.  index is the 1-based ordinal the fault carries;
input is the offending key when one exists; suggestions mirrors the
difflib.get_close_matches payload of unknown-switch faults, and
hintSuggestion is the alias embedded in the did-you-mean hint when the
hint has one (faults carry full message strings in the source; only the
claim-relevant fields are kept). -/
structure Fault where
  kind : FaultKind
  index : Nat
  input : String
  suggestions : List String
  hintSuggestion : Option String
  deriving DecidableEq, Repr

/-- Shorthand for faults whose extra payload is irrelevant to the claims. -/
def mkFault (k : FaultKind) (i : Nat) (inp : String) : Fault :=
  ⟨k, i, inp, [], none⟩

/-- An argument spec after construction (arguments.py).  Cardinal has no
names and never sets inline, helper, standalone or terminator, matching
getattr(argument, field, False) in the parser.  id models Python object
identity (the _calls set and the namespace fan-out share one object per
spec). -/
structure Argument where
  id : Nat
  kind : ArgKind
  names : List String
  nargs : Arity
  conv : String → Option String
  default : Value
  choices : List String
  inline : Bool
  helper : Bool
  standalone : Bool
  terminator : Bool
  nowait : Bool
  deprecated : Bool

/-- Convenience constructor for a cardinal spec. -/
def mkCardinal (id : Nat) (nargs : Arity) (default : Value) : Argument :=
  ⟨id, .cardinal, [], nargs, fun s => some s, default, [], false, false, false, false, false, false⟩

/-- Convenience constructor for an option spec with the converter str. -/
def mkOption (id : Nat) (names : List String) (nargs : Arity) (default : Value) : Argument :=
  ⟨id, .option, names, nargs, fun s => some s, default, [], false, false, false, false, false, false⟩

/-- Convenience constructor for a flag spec. -/
def mkFlag (id : Nat) (names : List String) : Argument :=
  ⟨id, .flag, names, .single, fun s => some s, .vNone, [], false, false, false, false, false, false⟩

/-- Convenience constructor for the auto-injected helper flags (aliases
-h, --help, -v, --version; commands.py lines 938-952): helper=True, which the
sanitizer turns into standalone, terminator and nowait. -/
def mkHelperFlag (id : Nat) (names : List String) : Argument :=
  ⟨id, .flag, names, .single, fun s => some s, .vNone, [], false, true, true, true, true, false⟩

/-- A command node restricted to the parts the claims touch: ordered
cardinals (param name to spec) and the alias fan-out table for switches
(every alias of one spec maps to the same Argument).  Children are not
modelled; all claims are about leaf commands. -/
structure Command where
  cardinals : List (String × Argument)
  switches : List (String × Argument)

/-- Assoc-list lookup mirroring Python dict indexing (first binding wins;
the tables are built without duplicate keys). -/
def alookup (l : List (String × Argument)) (k : String) : Option Argument :=
  match l with
  | [] => none
  | (k', v) :: rest => if k' = k then some v else alookup rest k

/- ----------------------------------------------------------------------
Claim C8: _sanitize_named_metadata constraint wiring (arguments.py 364-366)
---------------------------------------------------------------------- -/

/-- Result of the boolean constraint wiring for named specs. -/
structure NamedFlags where
  helper : Bool
  standalone : Bool
  terminator : Bool
  nowait : Bool
  deriving DecidableEq, Repr

/-- Embedding of the helper/standalone/terminator/nowait wiring in
_sanitize_named_metadata (arguments.py lines 364-366), applied by both
Option.__new__ and Flag.__new__ after bool() coercion of the inputs:
standalone |= helper; terminator |= helper; nowait |= terminator. -/
def sanitizeNamedFlags (helper standalone terminator nowait : Bool) : NamedFlags :=
  let standalone := standalone || helper
  let terminator := terminator || helper
  let nowait := nowait || terminator
  ⟨helper, standalone, terminator, nowait⟩

/- ----------------------------------------------------------------------
Claim C3: trigger policy (commands.py Command.trigger, faults.py
CommandException.__trigger__, CommandExit.__trigger__, Command._finalize)
---------------------------------------------------------------------- -/

/-- Observable effect of surfacing one fault through Command.trigger for a
command with no fallback installed (self._fallback is Unset, the default). -/
inductive TriggerOutcome where
  | buffered                  -- appended to self._faults, parse continues
  | raised                    -- Python raise (library mode)
  | reported                  -- printed or warned, execution continues
  | exited (code : Nat)       -- printed then sys.exit(code)
  deriving DecidableEq, Repr

/-- CommandException.__trigger__ (faults.py lines 172-178): library mode
raises; shell mode prints, then returns under defer, else exits 1. -/
def exceptionDunderTrigger (shell deferred : Bool) : TriggerOutcome :=
  if !shell then .raised
  else if deferred then .reported
  else .exited 1

/-- CommandWarning.__trigger__ (faults.py lines 265-268): library mode
issues a recoverable warnings.warn; shell mode prints.  Both continue. -/
def warningDunderTrigger (_shell : Bool) : TriggerOutcome :=
  .reported

/-- Command.trigger (commands.py lines 1614-1632) for a command with no
fallback: under the defer policy the fault is appended to the sink;
otherwise, in shell mode the help renderer is printed to stderr first, and
the fault dispatches through its own __trigger__ with the context flags of
the command.  The Bool records whether help was rendered on this call. -/
def commandTrigger (shell deferred : Bool) (isWarning : Bool) : TriggerOutcome × Bool :=
  if deferred then (.buffered, false)
  else
    let outcome := if isWarning then warningDunderTrigger shell
                   else exceptionDunderTrigger shell deferred
    (outcome, shell)

/-- Outcome of Command._finalize (commands.py lines 2305-2367). -/
inductive FinalizeOutcome where
  | continue'
  | raisedGroup (excs : List Fault)   -- CommandExit raised (library mode)
  | exitedGroup (excs : List Fault) (code : Nat)  -- printed, sys.exit(1)
  deriving DecidableEq, Repr

/-- Command._finalize: splits the sink into exceptions and warnings,
reports all warnings, and when exceptions remain groups them into one
CommandExit which is raised in library mode or printed-and-exited (status
1) in shell mode; in shell mode help renders once first when asked. -/
def finalize (shell : Bool) (faults : List Fault) : FinalizeOutcome :=
  let excs := faults.filter (fun f => !f.kind.isWarning)
  if excs.isEmpty then .continue'
  else if shell then .exitedGroup excs 1
  else .raisedGroup excs

/- ----------------------------------------------------------------------
Model of difflib (stdlib) as used by Command._resolve_token:
difflib.get_close_matches(input, self.switches.keys(), 5) with the default
cutoff 0.6 and no junk (autojunk only engages for sequences of 200 or more
elements, far beyond any alias).  The cutoff comparison uses the exact
rational three fifths; the source compares IEEE doubles, which only
differs on representational hairlines that no instance in this file
approaches.
---------------------------------------------------------------------- -/

/-- Indexing into a character list; every use below is bounds-guarded as
in the source, the default is never compared. -/
def charAt (s : List Char) (i : Nat) : Char :=
  s.getD i ' '

/-- Ascending positions j with b[j] = c: the b2j table of SequenceMatcher
restricted to one character (no junk is ever removed). -/
def positionsOf (b : List Char) (c : Char) : List Nat :=
  (List.range b.length).filter (fun j => charAt b j = c)

/-- Lookup in the j2len row dictionary, default 0 (j2len.get(j-1, 0)). -/
def j2get (m : List (Nat × Nat)) (j : Nat) : Nat :=
  match m with
  | [] => 0
  | (j', k) :: rest => if j' = j then k else j2get rest j

/-- Inner loop of find_longest_match over the ascending occurrence list of
a[i] in b: skips j below blo (continue), stops at j at or beyond bhi
(break), extends the diagonal run ending at (i, j) and tracks the best
(besti, bestj, bestsize), updating only on strictly larger size. -/
def flmInner (j2len : List (Nat × Nat)) (blo bhi i : Nat) :
    List Nat → List (Nat × Nat) → (Nat × Nat × Nat) → List (Nat × Nat) × (Nat × Nat × Nat)
  | [], newRow, best => (newRow, best)
  | j :: js, newRow, best =>
    if j < blo then flmInner j2len blo bhi i js newRow best
    else if bhi ≤ j then (newRow, best)
    else
      let k := (if j = 0 then 0 else j2get j2len (j - 1)) + 1
      let newRow := newRow ++ [(j, k)]
      let best := if k > best.2.2 then (i + 1 - k, j + 1 - k, k) else best
      flmInner j2len blo bhi i js newRow best

/-- Outer loop of find_longest_match: one row per i in range(alo, ahi),
threading the j2len row and the best triple.  steps counts the remaining
rows. -/
def flmRows (a b : List Char) (blo bhi : Nat) :
    Nat → Nat → List (Nat × Nat) → (Nat × Nat × Nat) → (Nat × Nat × Nat)
  | 0, _, _, best => best
  | steps + 1, i, j2len, best =>
    let (row, best) := flmInner j2len blo bhi i (positionsOf b (charAt a i)) [] best
    flmRows a b blo bhi steps (i + 1) row best

/-- Downward extension loop of find_longest_match.  Without junk it never
fires (the dynamic program is already maximal); kept for fidelity.  Fuel
besti bounds the iterations exactly. -/
def flmExtendDown (a b : List Char) (alo blo : Nat) :
    Nat → (Nat × Nat × Nat) → (Nat × Nat × Nat)
  | 0, best => best
  | fuel + 1, (bi, bj, bs) =>
    if alo < bi && blo < bj && (charAt a (bi - 1) = charAt b (bj - 1)) then
      flmExtendDown a b alo blo fuel (bi - 1, bj - 1, bs + 1)
    else (bi, bj, bs)

/-- Upward extension loop of find_longest_match (no junk, see above). -/
def flmExtendUp (a b : List Char) (ahi bhi : Nat) :
    Nat → (Nat × Nat × Nat) → (Nat × Nat × Nat)
  | 0, best => best
  | fuel + 1, (bi, bj, bs) =>
    if bi + bs < ahi && bj + bs < bhi && (charAt a (bi + bs) = charAt b (bj + bs)) then
      flmExtendUp a b ahi bhi fuel (bi, bj, bs + 1)
    else (bi, bj, bs)

/-- SequenceMatcher.find_longest_match on a[alo:ahi] and b[blo:bhi] with an
empty junk set: the classic j2len dynamic program followed by the two
non-junk extension passes. -/
def findLongestMatch (a b : List Char) (alo ahi blo bhi : Nat) : Nat × Nat × Nat :=
  let best := flmRows a b blo bhi (ahi - alo) alo [] (alo, blo, 0)
  let best := flmExtendDown a b alo blo best.1 best
  flmExtendUp a b ahi bhi (ahi - (best.1 + best.2.2)) best

/-- Total size of the matching blocks of a[alo:ahi] and b[blo:bhi]: the
recursion of get_matching_blocks, of which ratio() only consumes the sum
of block sizes.  Each level splits around the longest match, so the fuel
a.length + b.length + 1 always suffices. -/
def mbSum (a b : List Char) : Nat → Nat → Nat → Nat → Nat → Nat
  | 0, _, _, _, _ => 0
  | fuel + 1, alo, ahi, blo, bhi =>
    let (i, j, k) := findLongestMatch a b alo ahi blo bhi
    if k = 0 then 0
    else mbSum a b fuel alo i blo j + k + mbSum a b fuel (i + k) ahi (j + k) bhi

/-- Sum of matching block sizes over the whole strings. -/
def matchTotal (a b : List Char) : Nat :=
  mbSum a b (a.length + b.length + 1) 0 a.length 0 b.length

/-- SequenceMatcher.ratio() at least the default cutoff 0.6: the source
compares 2.0 * M / T with the cutoff; rationally, 10 * M at least 3 * T. -/
def ratioGE (a b : List Char) : Bool :=
  10 * matchTotal a b ≥ 3 * (a.length + b.length)

/-- Number of occurrences of c in s. -/
def charCount (s : List Char) (c : Char) : Nat :=
  s.countP (fun x => x = c)

/-- SequenceMatcher.quick_ratio() matches: the availability bookkeeping of
the source computes exactly the multiset intersection size of the two
character bags. -/
def quickMatches (a b : List Char) : Nat :=
  ((a.dedup).map (fun c => min (charCount a c) (charCount b c))).sum

/-- quick_ratio() at least the cutoff. -/
def quickGE (a b : List Char) : Bool :=
  10 * quickMatches a b ≥ 3 * (a.length + b.length)

/-- real_quick_ratio() at least the cutoff. -/
def realQuickGE (a b : List Char) : Bool :=
  10 * min a.length b.length ≥ 3 * (a.length + b.length)

/-- Candidate kept by get_close_matches: set_seq1 is the possibility x,
set_seq2 is the word, and the three ratio gates must all pass. -/
def closeCandidate (word x : String) : Bool :=
  realQuickGE x.data word.data && quickGE x.data word.data && ratioGE x.data word.data

/-- Descending tuple order of heapq.nlargest over (ratio, x): larger ratio
first, ties broken by the larger string (Python tuple comparison). -/
def scoredGT (word : String) (x y : String) : Bool :=
  let mx := matchTotal x.data word.data
  let tx := x.length + word.length
  let my := matchTotal y.data word.data
  let ty := y.length + word.length
  if mx * ty = my * tx then decide (y < x) else mx * ty > my * tx

/-- Insertion into a list already sorted by scoredGT. -/
def insertScored (word : String) (x : String) : List String → List String
  | [] => [x]
  | y :: ys => if scoredGT word x y then x :: y :: ys else y :: insertScored word x ys

/-- difflib.get_close_matches(word, possibilities, n) with cutoff 0.6:
filter by the three ratio gates, order descending by (ratio, string), keep
the first n. -/
def getCloseMatches (word : String) (possibilities : List String) (n : Nat) : List String :=
  let kept := possibilities.filter (closeCandidate word)
  (kept.foldl (fun acc x => insertScored word x acc) []).take n

/- ----------------------------------------------------------------------
Switch-token shape: the fullmatch in Command._resolve_token against
(?P<input>--?[^\W\d_](-?[^\W_]+)*)(=(?P<value>[^\r\n]*))? with ASCII
letters and digits standing in for the Unicode classes (every alias and
token in this development is ASCII).
---------------------------------------------------------------------- -/

/-- The class [^\W_]: a letter or a digit (word character, no underscore). -/
def isWordChar (c : Char) : Bool :=
  c.isAlpha || c.isDigit

/-- Tail of the name after the leading letter, matching (-?[^\W_]+)*:
word characters and single hyphens, where every hyphen is followed by a
word character. -/
def nameTailOk : List Char → Bool
  | [] => true
  | '-' :: c :: rest => isWordChar c && nameTailOk rest
  | '-' :: [] => false
  | c :: rest => isWordChar c && nameTailOk rest

/-- Name part of a switch token: one or two hyphens, then a letter that is
not a digit or underscore, then the tail. -/
def nameShapeOk (s : List Char) : Bool :=
  match s with
  | '-' :: '-' :: c :: rest => c.isAlpha && nameTailOk rest
  | '-' :: '-' :: [] => false
  | '-' :: c :: rest => c.isAlpha && nameTailOk rest
  | _ => false

/-- Split a token at its first equals sign (the name grammar admits no
equals sign, so the regex groups split exactly there). -/
def splitAtEq (s : List Char) : List Char × Option (List Char) :=
  match s with
  | [] => ([], none)
  | '=' :: rest => ([], some rest)
  | c :: rest =>
    let (n, v) := splitAtEq rest
    (c :: n, v)

/-- Value group [^\r\n]*. -/
def valueShapeOk (v : List Char) : Bool :=
  v.all (fun c => c ≠ '\r' && c ≠ '\n')

/-- Full token match of Command._resolve_token: on success, the normalized
name and the inline value (none when no equals sign is present, possibly
the empty string otherwise). -/
def splitShape (token : String) : Option (String × Option String) :=
  let (n, v) := splitAtEq token.data
  if nameShapeOk n then
    match v with
    | none => some (⟨n⟩, none)
    | some val => if valueShapeOk val then some (⟨n⟩, some ⟨val⟩) else none
  else none

/- ----------------------------------------------------------------------
Parser state and helpers (Command._parseargs and its private helpers).
The sink accumulates faults in trigger order (the deferred policy); the
immediate dispatch policy is the separate model above (claim C3).
---------------------------------------------------------------------- -/

/-- Python str.startswith with a single hyphen, over the character list
(kernel-computable, unlike String.startsWith). -/
def startsDash (s : String) : Bool :=
  match s.data with
  | '-' :: _ => true
  | _ => false

/-- Python str.strip(): drop leading and trailing whitespace (the ASCII
whitespace of every token in this development). -/
def pyStrip (s : String) : String :=
  ⟨((s.data.dropWhile Char.isWhitespace).reverse.dropWhile Char.isWhitespace).reverse⟩

/-- Helper of splitChar accumulating the current piece in reverse. -/
def splitCharGo (sep : Char) : List Char → List Char → List String
  | [], acc => [⟨acc.reverse⟩]
  | c :: rest, acc =>
    if c = sep then ⟨acc.reverse⟩ :: splitCharGo sep rest [] else splitCharGo sep rest (c :: acc)

/-- Python str.split with a one-character separator: empty pieces are
kept and the empty string yields one empty piece. -/
def splitChar (sep : Char) (s : String) : List String :=
  splitCharGo sep s.data []

/-- Namespace lookup (Python dict indexing). -/
def nsLookup (ns : List (String × Value)) (k : String) : Option Value :=
  match ns with
  | [] => none
  | (k', v) :: rest => if k' = k then some v else nsLookup rest k

/-- Membership test, input in self._namespace. -/
def nsContains (ns : List (String × Value)) (k : String) : Bool :=
  (nsLookup ns k).isSome

/-- Python dict write: an existing key keeps its position and changes its
value, a new key is appended. -/
def nsUpdate (ns : List (String × Value)) (k : String) (v : Value) : List (String × Value) :=
  match ns with
  | [] => [(k, v)]
  | (k', v') :: rest => if k' = k then (k', v) :: rest else (k', v') :: nsUpdate rest k v

/-- self._namespace.update(dict.fromkeys(names, v)): every name receives
the same value. -/
def nsUpdateAll (ns : List (String × Value)) (names : List String) (v : Value) : List (String × Value) :=
  names.foldl (fun acc n => nsUpdate acc n v) ns

/-- Keys of the namespace in insertion order. -/
def nsKeys (ns : List (String × Value)) : List String :=
  ns.map Prod.fst

/-- Inline value splitter of Command._parseargs (line 2541) on POSIX,
where os.pathsep is the colon: split on the colon when one is present,
else on the comma (a value with neither yields itself as the only part,
as in Python str.split). -/
def splitInline (v : String) : List String :=
  if v.data.contains ':' then splitChar ':' v else splitChar ',' v

/-- Peek predicate of Command._getvalues: there is a next token and it is
not switch-shaped, unless the greedy arity swallows switch-shaped tokens
too. -/
def peekOk (greedy : Bool) : List String → Bool
  | [] => false
  | t :: _ => !startsDash t || greedy

/-- Variadic consumption loop: pop-and-strip while the peek predicate
holds. -/
def takeVariadic (greedy : Bool) : List String → List String × List String
  | [] => ([], [])
  | t :: ts =>
    if !startsDash t || greedy then
      let (c, r) := takeVariadic greedy ts
      (pyStrip t :: c, r)
    else ([], t :: ts)

/-- Fixed-arity consumption loop: pop-and-strip while the peek predicate
holds and fewer than n values were taken. -/
def takeFixed : Nat → List String → List String × List String
  | 0, ts => ([], ts)
  | _ + 1, [] => ([], [])
  | n + 1, t :: ts =>
    if !startsDash t then
      let (c, r) := takeFixed n ts
      (pyStrip t :: c, r)
    else ([], t :: ts)

/-- Walk of the element-wise conversion loop of the variadic paths of
_getvalues: res is the mutating result list, idx the running write
index, fs the faults so far. -/
def convertVariadicGo (conv : String → Option String) (anchor : Nat) (input : String) :
    List String → List String → Nat → List Fault → List String × Nat × List Fault
  | res, [], idx, fs => (res, idx, fs)
  | res, obj :: objs, idx, fs =>
    if obj = "" then
      convertVariadicGo conv anchor input res objs idx (fs ++ [mkFault .emptyValue anchor input])
    else
      match conv obj with
      | some v => convertVariadicGo conv anchor input (res.set idx v) objs (idx + 1) fs
      | none =>
        convertVariadicGo conv anchor input res objs idx
          (fs ++ [mkFault .delegatedError anchor input])

/-- Element-wise conversion of the variadic paths of _getvalues: empty
tokens are reported and skipped, converter failures are reported as
delegated errors, successes are written back at the running write index
(so skipped slots retain their raw token when later successes do not
overwrite them, exactly as the in-place list mutation of the source). -/
def convertVariadic (conv : String → Option String) (anchor : Nat) (input : String)
    (raw : List String) : List String × List Fault :=
  let out := convertVariadicGo conv anchor input raw raw 0 []
  (out.1, out.2.2)

/-- Choice validation of the variadic paths: empty entries were already
reported and are skipped, each remaining entry outside the declared
choices raises InvalidChoiceError. -/
def choiceFaultsVariadic (choices : List String) (anchor : Nat) (input : String)
    (final : List String) : List Fault :=
  if choices.isEmpty then []
  else final.foldl
    (fun fs obj =>
      if obj = "" then fs
      else if choices.contains obj then fs
      else fs ++ [mkFault .invalidChoice anchor input]) []

/-- Result of Command._getvalues: the value to store, the remaining
tokens of the consumed stream, the advanced ordinal and the faults
triggered, in trigger order. -/
structure GVRes where
  value : Value
  rest : List String
  index : Nat
  faults : List Fault

/-- Command._getvalues (lines 1744-2137): consume per arity from toks,
convert element-wise, validate choices; an omitted optional-single yields
the default through coalesce.  When inline, the ordinal stays anchored on
the option name; otherwise it advances per consumed token, plus one more
for the option name itself at the end.  Single-path conversion faults are
anchored at the start ordinal (the source points them at the current
ordinal; the difference is presentational). -/
def getValues (arg : Argument) (input : String) (inline : Bool)
    (toks : List String) (idx : Nat) : GVRes :=
  let start := idx
  let greedy := arg.nargs = .remainder
  match arg.nargs with
  | .optional | .single =>
    let f1 := if arg.nargs = .single && !peekOk greedy toks then
                [mkFault .optionValueRequired start input] else []
    let (result, rest) :=
      match toks with
      | [] => (none, ([] : List String))
      | t :: ts => if !startsDash t || greedy then (some (pyStrip t), ts) else (none, t :: ts)
    let f2 := if inline && !rest.isEmpty then [mkFault .inlineExtraValues start input] else []
    let idx := idx + (if !inline && result.isSome then 1 else 0)
    match result with
    | none =>
      ⟨arg.default, rest, idx + (if arg.kind = .option then 1 else 0), f1 ++ f2⟩
    | some s =>
      let (v, f3) :=
        match arg.conv s with
        | some v => (v, [])
        | none => (s, [mkFault .delegatedError start input])
      let f4 := if !arg.choices.isEmpty && !arg.choices.contains v then
                  [mkFault .invalidChoice start input] else []
      ⟨.vStr v, rest, idx + (if arg.kind = .option then 1 else 0), f1 ++ f2 ++ f3 ++ f4⟩
  | .zeroOrMore | .oneOrMore | .remainder =>
    let f1 := if arg.nargs = .oneOrMore && !peekOk greedy toks then
                [mkFault .atLeastOneValueRequired start input] else []
    let (raw, rest) := takeVariadic greedy toks
    let idx := idx + (if inline then 0 else raw.length)
    let (final, f2) := convertVariadic arg.conv start input raw
    let f3 := choiceFaultsVariadic arg.choices start input final
    ⟨.vList final, rest, idx + (if arg.kind = .option then 1 else 0), f1 ++ f2 ++ f3⟩
  | .fixed n =>
    let (raw, rest) := takeFixed n toks
    let idx := idx + (if inline then 0 else raw.length)
    let f1 := if raw.length < n then [mkFault .notEnoughValues start input] else []
    let f2 := if inline && !rest.isEmpty then [mkFault .inlineExtraValues start input] else []
    let (final, f3) := convertVariadic arg.conv start input raw
    let f4 := choiceFaultsVariadic arg.choices start input final
    ⟨.vList final, rest, idx + (if arg.kind = .option then 1 else 0), f1 ++ f2 ++ f3 ++ f4⟩

/-- Command._resolve_token (lines 1634-1741): shape-check the token,
resolve the name against the switch table (unknown names get the fuzzy
suggestion payload and a hint that embeds the first suggestion when one
exists), then report inline-value misuse.  A failed resolution returns
none with the triggered fault, as the TypeError dance of the source. -/
def resolveToken (cmd : Command) (idx : Nat) (token : String) :
    Option (String × Option String × Argument) × List Fault :=
  match splitShape token with
  | none => (none, [mkFault .malformedToken idx token])
  | some (input, value) =>
    match alookup cmd.switches input with
    | none =>
      let sugg := getCloseMatches input (cmd.switches.map Prod.fst) 5
      (none, [⟨.unknownSwitch, idx, input, sugg, sugg.head?⟩])
    | some arg =>
      let fs :=
        match value with
        | some v =>
          (if arg.kind = .option && v = "" then [mkFault .emptyOptionValue idx input] else [])
            ++ (if arg.kind = .flag then [mkFault .flagAssignment idx input] else [])
        | none => []
      (some (input, value, arg), fs)

/-- Per-pass parser state: token queue, 1-based ordinal, namespace, fault
sink, the _calls identity set, the _waits bookkeeping and the trace of
bound-callback invocations routed through Command._handle (in invocation
order). -/
structure PState where
  tokens : List String
  index : Nat
  ns : List (String × Value)
  faults : List Fault
  calls : List Nat
  waits : List (Nat × String × Nat)
  events : List Nat

/-- Command._handle (lines 2211-2303) with the user callback opaque: a
spec already in _calls returns immediately; otherwise its pending _waits
entry is popped when the ordinal was not passed (the post-parse sweep),
the callback fires (one event) and the spec joins _calls. -/
def handleArg (st : PState) (a : Argument) (immediate : Bool) : PState :=
  if st.calls.contains a.id then st
  else
    let waits := if immediate then st.waits else st.waits.filter (fun w => w.1 ≠ a.id)
    { st with waits := waits, calls := st.calls ++ [a.id], events := st.events ++ [a.id] }

/-- self._waits.setdefault(argument, (input, start)). -/
def waitsSetdefault (w : List (Nat × String × Nat)) (id : Nat) (input : String) (i : Nat) :
    List (Nat × String × Nat) :=
  if w.any (fun x => x.1 = id) then w else w ++ [(id, input, i)]

/-- Body of the token loop of Command._parseargs after the spec for the
current token is settled (lines 2472-2575): deprecation warning, duplicate
detection, the per-kind parse (cardinal, option with inline splitting, or
flag), nowait scheduling, _waits registration, the standalone check and
the terminator verdict.  st.tokens already excludes the switch token, or
has the cardinal token pushed back.  Returns the new state and whether a
terminator ends the pass. -/
def applyArgument (st : PState) (arg : Argument) (input : String)
    (value : Option String) : PState × Bool :=
  let fDep := if arg.deprecated then [mkFault .deprecatedArgument st.index input] else []
  let fDup := if nsContains st.ns input then [mkFault .duplicatedSwitch st.index input] else []
  let st := { st with faults := st.faults ++ fDep ++ fDup }
  let start := st.index
  let st :=
    match arg.kind with
    | .cardinal =>
      let gv := getValues arg input false st.tokens st.index
      { st with tokens := gv.rest, index := gv.index,
                ns := nsUpdate st.ns input gv.value, faults := st.faults ++ gv.faults }
    | .option =>
      let inlineVal : Option String :=
        match value with
        | some v => if v = "" then none else some v
        | none => none
      let fInline := if arg.inline && inlineVal.isNone then
                       [mkFault .missingInlineValue st.index input] else []
      let st := { st with faults := st.faults ++ fInline }
      match inlineVal with
      | some v =>
        let gv := getValues arg input true (splitInline v) st.index
        { st with index := gv.index, ns := nsUpdateAll st.ns arg.names gv.value,
                  faults := st.faults ++ gv.faults }
      | none =>
        let gv := getValues arg input false st.tokens st.index
        { st with tokens := gv.rest, index := gv.index,
                  ns := nsUpdateAll st.ns arg.names gv.value, faults := st.faults ++ gv.faults }
    | .flag =>
      { st with ns := nsUpdateAll st.ns arg.names (.vBool true), index := st.index + 1 }
  let st := if arg.nowait && !st.calls.contains arg.id then handleArg st arg true else st
  let st := if !arg.nowait then
              { st with waits := waitsSetdefault st.waits arg.id input start } else st
  let fStand :=
    if arg.standalone &&
       ((nsKeys st.ns).filter (fun k => !arg.names.contains k)).length + st.tokens.length ≠ 0
    then [mkFault .standaloneSwitch start input] else []
  let st := { st with faults := st.faults ++ fStand }
  (st, arg.terminator)

/-- Consumption never produces more leftover tokens than it was given. -/
theorem takeVariadic_rest_le (greedy : Bool) (ts : List String) :
    (takeVariadic greedy ts).2.length ≤ ts.length := by
  induction ts with
  | nil => simp [takeVariadic]
  | cons t ts ih =>
    simp only [takeVariadic]
    split
    · exact Nat.le_succ_of_le ih
    · simp

/-- Consumption never produces more leftover tokens than it was given. -/
theorem takeFixed_rest_le (n : Nat) (ts : List String) :
    (takeFixed n ts).2.length ≤ ts.length := by
  induction n generalizing ts with
  | zero => simp [takeFixed]
  | succ n ih =>
    cases ts with
    | nil => simp [takeFixed]
    | cons t ts =>
      simp only [takeFixed]
      split
      · exact Nat.le_succ_of_le (ih ts)
      · simp

/-- _getvalues never produces more leftover tokens than it was given. -/
theorem getValues_rest_le (arg : Argument) (input : String) (inline : Bool)
    (toks : List String) (idx : Nat) :
    (getValues arg input inline toks idx).rest.length ≤ toks.length := by
  unfold getValues
  cases harity : arg.nargs with
  | optional | single =>
    cases toks with
    | nil => simp
    | cons t ts =>
      by_cases hd : startsDash t <;> simp [hd]
  | zeroOrMore | oneOrMore | remainder =>
    simpa using takeVariadic_rest_le _ toks
  | fixed n =>
    simpa using takeFixed_rest_le n toks

/-- Command._handle leaves the token stream untouched. -/
theorem handleArg_tokens (st : PState) (a : Argument) (imm : Bool) :
    (handleArg st a imm).tokens = st.tokens := by
  unfold handleArg
  split <;> rfl

/-- Projection of a conditional state through tokens. -/
theorem tokensOfIte (c : Prop) [Decidable c] (a b : PState) :
    (if c then a else b).tokens = if c then a.tokens else b.tokens := by
  split <;> rfl

/-- The loop body never produces more main-stream tokens than it was
given. -/
theorem applyArgument_tokens_le (st : PState) (arg : Argument) (input : String)
    (value : Option String) :
    ((applyArgument st arg input value).1).tokens.length ≤ st.tokens.length := by
  unfold applyArgument
  cases hk : arg.kind <;> simp only [hk]
  · simp only [tokensOfIte, handleArg_tokens]
    have h := getValues_rest_le arg input false st.tokens st.index
    split <;> split <;> simpa using h
  · cases value with
    | none =>
      simp only [tokensOfIte, handleArg_tokens]
      have h := getValues_rest_le arg input false st.tokens st.index
      split <;> split <;> simpa using h
    | some v =>
      by_cases hv : v = ""
      · simp only [hv, tokensOfIte, handleArg_tokens, reduceIte]
        have h := getValues_rest_le arg input false st.tokens st.index
        split <;> split <;> simpa using h
      · simp only [hv, tokensOfIte, handleArg_tokens, reduceIte]
        split <;> split <;> simp
  · simp only [tokensOfIte, handleArg_tokens]
    split <;> split <;> simp

/-- Head of the pending cardinal queue has greedy arity (the guard of the
token loop that routes switch-shaped tokens to the Remainder positional). -/
def pendingRemainder (pending : List (String × Argument)) : Bool :=
  match pending with
  | [] => false
  | (_, c) :: _ => c.nargs = .remainder

/-- Token loop of Command._parseargs (lines 2410-2575) for a command
without children: each round pops one token and either resolves it as a
switch (unless the next pending positional is greedy), or binds it to the
next pending positional (pushing it back for consumption), or reports it
as unexpected.  Returns the final state, the cardinals still pending and
whether a terminator ended the pass early.

The loop recurses on explicit fuel so that every concrete run evaluates
inside the kernel.  Exhausted fuel returns exactly like the normal
empty-queue exit; by applyArgument_tokens_le every round strictly shrinks
tokens plus pending, so the fuel parseArgs supplies (tokens plus declared
cardinals plus one) is never exhausted. -/
def parseLoop (cmd : Command) : Nat → List (String × Argument) → PState →
    PState × List (String × Argument) × Bool
  | 0, pending, st => (st, pending, false)
  | fuel + 1, pending, st =>
    match st.tokens with
    | [] => (st, pending, false)
    | token :: rest =>
      if startsDash token && !pendingRemainder pending then
        match resolveToken cmd st.index token with
        | (none, fs) =>
          parseLoop cmd fuel pending
            { st with tokens := rest, index := st.index + 1, faults := st.faults ++ fs }
        | (some (input, value, arg), fs) =>
          let r := applyArgument { st with tokens := rest, faults := st.faults ++ fs } arg input value
          if r.2 then (r.1, pending, true) else parseLoop cmd fuel pending r.1
      else
        match pending with
        | [] =>
          parseLoop cmd fuel []
            { st with tokens := rest, index := st.index + 1,
                      faults := st.faults ++ [mkFault .unexpectedCardinal st.index ""] }
        | (k, carg) :: pending' =>
          let r := applyArgument { st with tokens := token :: rest } carg k none
          if r.2 then (r.1, pending', true) else parseLoop cmd fuel pending' r.1

/-- A drained token queue exits the loop at any fuel. -/
theorem parseLoop_nil (cmd : Command) (fuel : Nat) (pending : List (String × Argument))
    (st : PState) (h : st.tokens = []) : parseLoop cmd fuel pending st = (st, pending, false) := by
  cases fuel <;> simp [parseLoop, h]

/-- Post-loop handler sweep (lines 2577-2581): for every key of the
namespace, in insertion order, look the spec up among the cardinals and
then among the switches and run Command._handle on it; the _calls guard
inside makes later aliases of an already-handled spec no-ops.  A key in
neither table cannot arise (it would KeyError in the source). -/
def sweepHandles (cmd : Command) : List String → PState → PState
  | [], st => st
  | k :: ks, st =>
    match alookup cmd.cardinals k with
    | some a => sweepHandles cmd ks (handleArg st a false)
    | none =>
      match alookup cmd.switches k with
      | some a => sweepHandles cmd ks (handleArg st a false)
      | none => sweepHandles cmd ks st

/-- Missing-cardinal sweep over the still-pending positionals (lines
2583-2595): pop until a spec whose nargs is the question mark, an integer
or None is found, record one MissingCardinalsError for it and stop;
star, plus and Ellipsis arities are passed over silently. -/
def missingCardinalsFault : List (String × Argument) → List Fault
  | [] => []
  | (_, a) :: rest =>
    match a.nargs with
    | .optional | .single | .fixed _ => [mkFault .missingCardinals 0 ""]
    | _ => missingCardinalsFault rest

/-- Command._parseargs (lines 2369-2609) for a command without children,
up to but excluding _finalize and the callback dispatch: fresh per-pass
state, the token loop, and on a pass not ended by a terminator the
handler sweep, the missing-cardinal sweep and the leftover-token check.
Returns the final state and whether a terminator ended the pass. -/
def parseArgs (cmd : Command) (tokens : List String) (index : Nat) : PState × Bool :=
  let st0 : PState := ⟨tokens, index, [], [], [], [], []⟩
  let (st, pendingLeft, term) := parseLoop cmd (tokens.length + cmd.cardinals.length + 1) cmd.cardinals st0
  if term then (st, true)
  else
    let st := sweepHandles cmd (nsKeys st.ns) st
    let st := { st with faults := st.faults ++ missingCardinalsFault pendingLeft }
    let st := if !st.tokens.isEmpty then
                { st with faults := st.faults ++ [mkFault .unparsedTokens 0 ""] } else st
    (st, false)

/-- Value a callback parameter receives after a pass (lines 2614-2620):
the namespace entry under the first declared name, or the declared
default when the pass resolved nothing for it. -/
def callbackValue (st : PState) (key : String) (default : Value) : Value :=
  (nsLookup st.ns key).getD default

/- ----------------------------------------------------------------------
Concrete fixtures: commands as Command.__new__ builds them, with the
auto-injected helper flags at their standard aliases (commands.py lines
938-952) and ids standing in for object identity.
---------------------------------------------------------------------- -/

/-- The auto-injected help flag. -/
def helpFlag : Argument := mkHelperFlag 1 ["-h", "--help"]

/-- The auto-injected version flag. -/
def versionFlag : Argument := mkHelperFlag 2 ["-v", "--version"]

/-- Switch table rows every fixture command carries. -/
def baseSwitches : List (String × Argument) :=
  [("-h", helpFlag), ("--help", helpFlag), ("-v", versionFlag), ("--version", versionFlag)]

/-- One Optional positional, Cardinal(nargs=the question mark, default DEF). -/
def cmdOptionalCardinal : Command :=
  ⟨[("x", mkCardinal 10 .optional (.vStr "DEF"))], baseSwitches⟩

/-- One OneOrMore positional, Cardinal(nargs=the plus). -/
def cmdOneOrMoreCardinal : Command :=
  ⟨[("x", mkCardinal 10 .oneOrMore .vNone)], baseSwitches⟩

/-- One Single positional, Cardinal(). -/
def cmdSingleCardinal : Command :=
  ⟨[("x", mkCardinal 10 .single .vNone)], baseSwitches⟩

/-- One Fixed(2) positional. -/
def cmdFixedCardinal : Command :=
  ⟨[("x", mkCardinal 10 (.fixed 2) .vNone)], baseSwitches⟩

/-- One ZeroOrMore positional, Cardinal(nargs=the star). -/
def cmdStarCardinal : Command :=
  ⟨[("x", mkCardinal 10 .zeroOrMore .vNone)], baseSwitches⟩

/-- One Remainder positional, Cardinal(nargs=Ellipsis). -/
def cmdRemainderCardinal : Command :=
  ⟨[("rest", mkCardinal 10 .remainder .vNone)], baseSwitches⟩

/-- Flag("--verbose", "-V"). -/
def verboseFlag : Argument := mkFlag 3 ["--verbose", "-V"]

/-- Command with the verbose flag declared after the injected helpers. -/
def cmdVerbose : Command :=
  ⟨[], baseSwitches ++ [("--verbose", verboseFlag), ("-V", verboseFlag)]⟩

/-- Flag("--a"), declared before flagB. -/
def flagA : Argument := mkFlag 6 ["--a"]

/-- Flag("--b"), declared after flagA. -/
def flagB : Argument := mkFlag 7 ["--b"]

/-- Command declaring flagA then flagB. -/
def cmdAB : Command :=
  ⟨[], baseSwitches ++ [("--a", flagA), ("--b", flagB)]⟩

/-- Option("--opt") of Single arity, not inline-only. -/
def optSingle : Argument := mkOption 5 ["--opt"] .single .vNone

/-- Command with the single-arity option. -/
def cmdOpt : Command :=
  ⟨[], baseSwitches ++ [("--opt", optSingle)]⟩

/-- Declaration order of the specs of a command: cardinals then switches,
one entry per spec (the order _process_source registers them). -/
def declarationOrder (cmd : Command) : List Nat :=
  (cmd.cardinals.map (fun p => p.2.id) ++ cmd.switches.map (fun p => p.2.id)).dedup

/- ----------------------------------------------------------------------
Claim theorems
---------------------------------------------------------------------- -/

/-- C8: for every combination of boolean constructor inputs, the
constraint wiring of _sanitize_named_metadata (shared by Option.__new__
and Flag.__new__) makes helper force standalone and terminator, and makes
terminator (given or forced) force nowait, so the constructed spec always
satisfies these implications. -/
theorem claim_C8 (helper standalone terminator nowait : Bool) :
    (helper = true →
      (sanitizeNamedFlags helper standalone terminator nowait).standalone = true ∧
      (sanitizeNamedFlags helper standalone terminator nowait).terminator = true) ∧
    ((sanitizeNamedFlags helper standalone terminator nowait).terminator = true →
      (sanitizeNamedFlags helper standalone terminator nowait).nowait = true) := by
  cases helper <;> cases standalone <;> cases terminator <;> cases nowait <;>
    simp [sanitizeNamedFlags]

/-- Witness for C8 at helper=True with all other inputs False. -/
theorem claim_C8_witness :
    (sanitizeNamedFlags true false false false).standalone = true ∧
    (sanitizeNamedFlags true false false false).terminator = true ∧
    (sanitizeNamedFlags true false false false).nowait = true := by
  have h := claim_C8 true false false false
  exact ⟨(h.1 rfl).1, (h.1 rfl).2, h.2 (h.1 rfl).2⟩

/-- C3 counterexample: in shell mode without the defer policy, the first
Exception handed to Command.trigger is printed and the process exits with
status 1 immediately (after help renders once to stderr); it is not
buffered for end-of-pass aggregation, refuting the claim that fatal
faults accumulate in this mode. -/
theorem claim_C3_counterexample :
    commandTrigger true false false = (.exited 1, true) ∧
    (commandTrigger true false false).1 ≠ TriggerOutcome.buffered := by
  decide

/-- C3 amended: fatal faults accumulate and aggregate only under the
defer policy: with deferred=True every fault is buffered in the sink, and
at end of pass _finalize groups the buffered Exceptions into one
CommandExit which, in shell mode, terminates the process with status 1;
without defer, a shell-mode Exception exits with status 1 at once. -/
theorem claim_C3 (shell isWarning : Bool) (faults : List Fault)
    (h : (faults.filter (fun f => !f.kind.isWarning)).isEmpty = false) :
    commandTrigger shell true isWarning = (.buffered, false) ∧
    finalize true faults = .exitedGroup (faults.filter (fun f => !f.kind.isWarning)) 1 ∧
    commandTrigger true false false = (.exited 1, true) := by
  refine ⟨by simp [commandTrigger], ?_, by decide⟩
  simp [finalize, h]

/-- Witness for C3 at a sink holding one unknown-switch Exception. -/
theorem claim_C3_witness :
    commandTrigger false true false = (.buffered, false) ∧
    finalize true [mkFault .unknownSwitch 1 "--x"] =
      .exitedGroup [mkFault .unknownSwitch 1 "--x"] 1 ∧
    commandTrigger true false false = (.exited 1, true) := by
  have h := claim_C3 false false [mkFault .unknownSwitch 1 "--x"] (by decide)
  exact ⟨h.1, by simpa using h.2.1, h.2.2⟩

/-- C1, evaluated at the failing inputs: with no tokens, an Optional
(question-mark) positional is reported missing by the end-of-pass sweep
even though the callback would receive its declared default, while a
OneOrMore (plus) positional is not reported at all; Single and Fixed are
reported and ZeroOrMore and Remainder are not, as the claim states.  The
claim and the code disagree exactly on Optional and OneOrMore. -/
theorem claim_C1 :
    (parseArgs cmdOptionalCardinal [] 1).1.faults = [mkFault .missingCardinals 0 ""] ∧
    callbackValue (parseArgs cmdOptionalCardinal [] 1).1 "x" (.vStr "DEF") = .vStr "DEF" ∧
    (parseArgs cmdOneOrMoreCardinal [] 1).1.faults = [] ∧
    (parseArgs cmdSingleCardinal [] 1).1.faults = [mkFault .missingCardinals 0 ""] ∧
    (parseArgs cmdFixedCardinal [] 1).1.faults = [mkFault .missingCardinals 0 ""] ∧
    (parseArgs cmdStarCardinal [] 1).1.faults = [] ∧
    (parseArgs cmdRemainderCardinal [] 1).1.faults = [] := by
  decide

/-- Ids of the specs behind a key sequence, resolved the way the
post-parse sweep resolves them (cardinals first, then switches). -/
def sweepIds (cmd : Command) (keys : List String) : List Nat :=
  keys.filterMap (fun k =>
    match alookup cmd.cardinals k with
    | some a => some a.id
    | none => (alookup cmd.switches k).map Argument.id)

/-- Statement of the amended C2 ordering, written from the amended
claim: walk the ids in namespace insertion order and invoke each spec the
first time it appears, skipping specs already called. -/
def firstInvocations : List Nat → List Nat → List Nat
  | [], _ => []
  | i :: rest, calls =>
    if calls.contains i then firstInvocations rest calls
    else i :: firstInvocations rest (calls ++ [i])

/-- The post-parse sweep invokes exactly the first-occurrence ids of the
key sequence that are not yet in _calls, in key order, appending them to
the event trace and to _calls. -/
theorem handleArg_seen (st : PState) (a : Argument) (imm : Bool)
    (hm : st.calls.contains a.id = true) : handleArg st a imm = st := by
  unfold handleArg
  rw [hm]
  simp

theorem handleArg_fresh (st : PState) (a : Argument) (hm : st.calls.contains a.id = false) :
    handleArg st a false =
      { st with waits := st.waits.filter (fun w => w.1 ≠ a.id),
                calls := st.calls ++ [a.id], events := st.events ++ [a.id] } := by
  unfold handleArg
  rw [hm]
  simp

theorem sweepHandles_events (cmd : Command) (keys : List String) (st : PState) :
    (sweepHandles cmd keys st).events = st.events ++ firstInvocations (sweepIds cmd keys) st.calls ∧
    (sweepHandles cmd keys st).calls = st.calls ++ firstInvocations (sweepIds cmd keys) st.calls := by
  induction keys generalizing st with
  | nil => simp [sweepHandles, sweepIds, firstInvocations]
  | cons k ks ih =>
    simp only [sweepIds, List.filterMap_cons] at ih ⊢
    cases hc : alookup cmd.cardinals k with
    | some a =>
      simp only [sweepHandles, hc]
      cases hm : st.calls.contains a.id with
      | true =>
        rw [handleArg_seen st a false hm]
        simp only [firstInvocations]
        rw [hm]
        simpa using ih st
      | false =>
        rw [handleArg_fresh st a hm]
        obtain ⟨h1, h2⟩ := ih { st with waits := st.waits.filter (fun w => w.1 ≠ a.id),
                                        calls := st.calls ++ [a.id], events := st.events ++ [a.id] }
        simp only [firstInvocations]
        rw [hm]
        constructor
        · rw [h1]; simp
        · rw [h2]; simp
    | none =>
      cases hs : alookup cmd.switches k with
      | some a =>
        simp only [sweepHandles, hc, hs, Option.map_some]
        cases hm : st.calls.contains a.id with
        | true =>
          rw [handleArg_seen st a false hm]
          simp only [firstInvocations]
          rw [hm]
          simpa using ih st
        | false =>
          rw [handleArg_fresh st a hm]
          obtain ⟨h1, h2⟩ := ih { st with waits := st.waits.filter (fun w => w.1 ≠ a.id),
                                          calls := st.calls ++ [a.id], events := st.events ++ [a.id] }
          simp only [firstInvocations]
          rw [hm]
          constructor
          · rw [h1]; simp
          · rw [h2]; simp
      | none =>
        simp only [sweepHandles, hc, hs, Option.map_none]
        simpa using ih st

/-- C2 amended: when the token loop ends without a terminator, the pass
events are the loop events followed by the post-parse invocations, and
those happen in namespace insertion order (first occurrence per spec,
specs already called skipped) rather than declaration order. -/
theorem claim_C2 (cmd : Command) (tokens : List String) (index : Nat)
    (hterm : (parseLoop cmd (tokens.length + cmd.cardinals.length + 1) cmd.cardinals
                ⟨tokens, index, [], [], [], [], []⟩).2.2 = false) :
    (parseArgs cmd tokens index).1.events =
      (parseLoop cmd (tokens.length + cmd.cardinals.length + 1) cmd.cardinals
          ⟨tokens, index, [], [], [], [], []⟩).1.events ++
        firstInvocations
          (sweepIds cmd (nsKeys (parseLoop cmd (tokens.length + cmd.cardinals.length + 1)
              cmd.cardinals ⟨tokens, index, [], [], [], [], []⟩).1.ns))
          (parseLoop cmd (tokens.length + cmd.cardinals.length + 1) cmd.cardinals
              ⟨tokens, index, [], [], [], [], []⟩).1.calls := by
  simp only [parseArgs]
  set out := parseLoop cmd (tokens.length + cmd.cardinals.length + 1) cmd.cardinals
      ⟨tokens, index, [], [], [], [], []⟩ with hout
  obtain ⟨st, pending, term⟩ := out
  simp only at hterm
  subst hterm
  have h := sweepHandles_events cmd (nsKeys st.ns) st
  split
  · simp_all
  · split <;> simpa using h.1

/-- Witness for C2 on the two-flag command with tokens naming flagB then
flagA: the loop records no events, the sweep then fires flagB and flagA
in token order. -/
theorem claim_C2_witness :
    (parseLoop cmdAB (2 + cmdAB.cardinals.length + 1) cmdAB.cardinals
        ⟨["--b", "--a"], 1, [], [], [], [], []⟩).2.2 = false ∧
    (parseArgs cmdAB ["--b", "--a"] 1).1.events =
      (parseLoop cmdAB (2 + cmdAB.cardinals.length + 1) cmdAB.cardinals
          ⟨["--b", "--a"], 1, [], [], [], [], []⟩).1.events ++
        firstInvocations
          (sweepIds cmdAB (nsKeys (parseLoop cmdAB (2 + cmdAB.cardinals.length + 1)
              cmdAB.cardinals ⟨["--b", "--a"], 1, [], [], [], [], []⟩).1.ns))
          (parseLoop cmdAB (2 + cmdAB.cardinals.length + 1) cmdAB.cardinals
              ⟨["--b", "--a"], 1, [], [], [], [], []⟩).1.calls := by
  refine ⟨by decide, ?_⟩
  exact claim_C2 cmdAB ["--b", "--a"] 1 (by decide)

/-- Projection of a conditional state through events. -/
theorem eventsOfIte (c : Prop) [Decidable c] (a b : PState) :
    (if c then a else b).events = if c then a.events else b.events := by
  split <;> rfl

/-- Projection of a conditional state through calls. -/
theorem callsOfIte (c : Prop) [Decidable c] (a b : PState) :
    (if c then a else b).calls = if c then a.calls else b.calls := by
  split <;> rfl

/-- The per-pass invocation invariant behind claim C10: the event trace
repeats no spec, and it lists exactly the members of _calls. -/
def InvokeInv (st : PState) : Prop :=
  st.events.Nodup ∧ ∀ x, x ∈ st.events ↔ x ∈ st.calls

/-- For a spec not yet in _calls, Command._handle appends its identity to
both the trace and _calls, at any immediacy. -/
theorem handleArg_fresh_parts (st : PState) (a : Argument) (imm : Bool)
    (hm : st.calls.contains a.id = false) :
    (handleArg st a imm).events = st.events ++ [a.id] ∧
    (handleArg st a imm).calls = st.calls ++ [a.id] := by
  unfold handleArg
  rw [hm]
  cases imm <;> simp

/-- Command._handle preserves the invocation invariant: an already-called
spec is a no-op, a fresh one joins both the trace and _calls. -/
theorem handleArg_inv (st : PState) (a : Argument) (imm : Bool) (h : InvokeInv st) :
    InvokeInv (handleArg st a imm) := by
  obtain ⟨hnd, hiff⟩ := h
  cases hm : st.calls.contains a.id with
  | true =>
    rw [handleArg_seen st a imm hm]
    exact ⟨hnd, hiff⟩
  | false =>
    obtain ⟨he, hc⟩ := handleArg_fresh_parts st a imm hm
    have hnc : a.id ∉ st.calls := by simpa using hm
    have hne : a.id ∉ st.events := fun hx => hnc ((hiff a.id).1 hx)
    refine ⟨?_, ?_⟩
    · rw [he]
      simp [List.nodup_append, hnd, hne]
    · intro x
      rw [he, hc]
      simp [List.mem_append, hiff x]

/-- The loop body preserves the invocation invariant: events and calls
change only through Command._handle. -/
theorem applyArgument_inv (st : PState) (arg : Argument) (input : String)
    (value : Option String) (h : InvokeInv st) : InvokeInv (applyArgument st arg input value).1 := by
  unfold applyArgument
  cases hk : arg.kind
  case cardinal =>
    simp only [hk, InvokeInv, eventsOfIte, callsOfIte, ite_self]
    split
    · exact handleArg_inv _ arg true h
    · exact h
  case option =>
    cases value with
    | none =>
      simp only [hk, InvokeInv, eventsOfIte, callsOfIte, ite_self]
      split
      · exact handleArg_inv _ arg true h
      · exact h
    | some v =>
      by_cases hv : v = "" <;>
        simp only [hk, hv, reduceIte, InvokeInv, eventsOfIte, callsOfIte, ite_self] <;>
        · split
          · exact handleArg_inv _ arg true h
          · exact h
  case flag =>
    simp only [hk, InvokeInv, eventsOfIte, callsOfIte, ite_self]
    split
    · exact handleArg_inv _ arg true h
    · exact h

/-- The token loop preserves the invocation invariant. -/
theorem parseLoop_inv (cmd : Command) (fuel : Nat) (pending : List (String × Argument))
    (st : PState) (h : InvokeInv st) : InvokeInv (parseLoop cmd fuel pending st).1 := by
  induction fuel generalizing pending st with
  | zero => simpa [parseLoop] using h
  | succ fuel ih =>
    rw [parseLoop]
    cases hT : st.tokens with
    | nil => simpa using h
    | cons token rest =>
      simp only
      split
      · rcases hres : resolveToken cmd st.index token with ⟨o, fs⟩
        cases o with
        | none => exact ih _ _ h
        | some triple =>
          obtain ⟨input, value, arg⟩ := triple
          simp only
          split
          · exact applyArgument_inv _ arg input value h
          · exact ih _ _ (applyArgument_inv _ arg input value h)
      · cases pending with
        | nil => exact ih _ _ h
        | cons p pending' =>
          obtain ⟨k, carg⟩ := p
          simp only
          split
          · exact applyArgument_inv _ carg k none h
          · exact ih _ _ (applyArgument_inv _ carg k none h)

/-- The post-parse sweep preserves the invocation invariant. -/
theorem sweepHandles_inv (cmd : Command) (keys : List String) (st : PState)
    (h : InvokeInv st) : InvokeInv (sweepHandles cmd keys st) := by
  induction keys generalizing st with
  | nil => simpa [sweepHandles] using h
  | cons k ks ih =>
    simp only [sweepHandles]
    cases alookup cmd.cardinals k with
    | some a => exact ih _ (handleArg_inv st a false h)
    | none =>
      cases alookup cmd.switches k with
      | some a => exact ih _ (handleArg_inv st a false h)
      | none => exact ih _ h

/-- C10: within a single pass, the bound callback of any given spec is
routed through Command._handle at most once — the trace of invocations
never repeats a spec identity, whether the spec was handled eagerly
(nowait), by the post-parse sweep, or was reachable through several
aliases, because every invocation is guarded by the per-pass _calls set. -/
theorem claim_C10 (cmd : Command) (tokens : List String) (index : Nat) :
    (parseArgs cmd tokens index).1.events.Nodup := by
  have h0 : InvokeInv ⟨tokens, index, [], [], [], [], []⟩ := by
    refine ⟨List.nodup_nil, ?_⟩
    intro x
    simp
  have hloop := parseLoop_inv cmd (tokens.length + cmd.cardinals.length + 1) cmd.cardinals
      ⟨tokens, index, [], [], [], [], []⟩ h0
  simp only [parseArgs]
  set out := parseLoop cmd (tokens.length + cmd.cardinals.length + 1) cmd.cardinals
      ⟨tokens, index, [], [], [], [], []⟩ with hout
  obtain ⟨st, pending, term⟩ := out
  have hst : InvokeInv st := hloop
  split
  · exact hst.1
  · have hsw := sweepHandles_inv cmd (nsKeys st.ns) st hst
    split
    · exact hsw.1
    · exact hsw.1

/-- Projection of a conditional state through ns. -/
theorem nsOfIte (c : Prop) [Decidable c] (a b : PState) :
    (if c then a else b).ns = if c then a.ns else b.ns := by
  split <;> rfl

/-- Command._handle leaves the namespace untouched. -/
theorem handleArg_ns (st : PState) (a : Argument) (imm : Bool) :
    (handleArg st a imm).ns = st.ns := by
  unfold handleArg
  split <;> rfl

/-- The post-parse sweep leaves the namespace untouched. -/
theorem sweepHandles_ns (cmd : Command) (keys : List String) (st : PState) :
    (sweepHandles cmd keys st).ns = st.ns := by
  induction keys generalizing st with
  | nil => rfl
  | cons k ks ih =>
    simp only [sweepHandles]
    cases alookup cmd.cardinals k with
    | some a => rw [ih, handleArg_ns]
    | none =>
      cases alookup cmd.switches k with
      | some a => rw [ih, handleArg_ns]
      | none => exact ih st

/-- A successful assoc lookup exhibits a table row. -/
theorem alookup_mem (l : List (String × Argument)) (k : String) (v : Argument)
    (h : alookup l k = some v) : (k, v) ∈ l := by
  induction l with
  | nil => simp [alookup] at h
  | cons p rest ih =>
    obtain ⟨k', v'⟩ := p
    by_cases hk : k' = k
    · subst hk
      simp [alookup] at h
      simp [h]
    · simp [alookup, hk] at h
      exact List.mem_cons_of_mem _ (ih h)

/-- Bridge between the boolean contains of the model and membership. -/
theorem contains_mem {l : List String} {a : String} : l.contains a = true ↔ a ∈ l :=
  List.elem_iff

/-- Lookup after a dict write: the written key reads the new value, every
other key is untouched. -/
theorem nsLookup_nsUpdate (ns : List (String × Value)) (k : String) (v : Value) (a : String) :
    nsLookup (nsUpdate ns k v) a = if a = k then some v else nsLookup ns a := by
  induction ns with
  | nil =>
    simp only [nsUpdate, nsLookup]
    by_cases ha : a = k
    · subst ha
      simp
    · have ha' : ¬ (k = a) := fun hh => ha hh.symm
      simp [ha, ha']
  | cons p rest ih =>
    obtain ⟨k', v'⟩ := p
    simp only [nsUpdate]
    by_cases hk : k' = k
    · subst hk
      simp only [if_pos rfl, nsLookup]
      by_cases ha : k' = a
      · subst ha
        simp
      · have ha' : ¬ (a = k') := fun hh => ha hh.symm
        simp [ha, ha']
    · rw [if_neg hk]
      simp only [nsLookup]
      by_cases ha : k' = a
      · have hak : ¬ (a = k) := fun hh => hk (by rw [ha, hh])
        simp [ha, hak]
      · simp [ha, ih]

/-- Lookup after the alias fan-out write: every written name reads the
new value, every other key is untouched. -/
theorem nsLookup_nsUpdateAll (ns : List (String × Value)) (names : List String) (v : Value)
    (a : String) :
    nsLookup (nsUpdateAll ns names v) a = if names.contains a then some v else nsLookup ns a := by
  induction names generalizing ns with
  | nil => simp [nsUpdateAll]
  | cons n rest ih =>
    have hfold : nsUpdateAll ns (n :: rest) v = nsUpdateAll (nsUpdate ns n v) rest v := rfl
    rw [hfold, ih, nsLookup_nsUpdate, List.contains_cons]
    by_cases hr : rest.contains a = true
    · have hmem := contains_mem.1 hr
      simp [hr, hmem]
    · simp only [Bool.not_eq_true] at hr
      by_cases hn : a = n
      · subst hn
        simp [hr]
      · have hbn : (a == n) = false := by simpa using hn
        simp [hr, hbn, hn]

/-- Structural well-formedness the Command constructor guarantees
(commands.py _process_source): the cardinals table holds Cardinal specs
keyed by parameter names that collide with no alias, the switch table
holds Option and Flag specs, and any two switch rows either expose the
same spec names (two aliases of one spec) or disjoint ones (two distinct
specs; duplicate aliases are rejected at construction). -/
def commandWf (cmd : Command) : Bool :=
  cmd.cardinals.all (fun p => p.2.kind == ArgKind.cardinal) &&
  cmd.switches.all (fun q => q.2.kind != ArgKind.cardinal) &&
  cmd.cardinals.all (fun p => cmd.switches.all (fun q => !q.2.names.contains p.1)) &&
  cmd.switches.all (fun p => cmd.switches.all (fun q =>
    p.2.names == q.2.names || p.2.names.all (fun n => !q.2.names.contains n)))

/-- Alias coherence of a namespace: every two aliases of one switch spec
read the same entry. -/
def aliasUniform (cmd : Command) (ns : List (String × Value)) : Prop :=
  ∀ p ∈ cmd.switches, ∀ a ∈ p.2.names, ∀ b ∈ p.2.names, nsLookup ns a = nsLookup ns b

/-- Writing a cardinal entry keeps alias coherence: cardinal keys collide
with no alias. -/
theorem aliasUniform_nsUpdate (cmd : Command) (ns : List (String × Value)) (k : String)
    (carg : Argument) (v : Value) (hwf : commandWf cmd = true) (hk : (k, carg) ∈ cmd.cardinals)
    (h : aliasUniform cmd ns) : aliasUniform cmd (nsUpdate ns k v) := by
  intro p hp a ha b hb
  rw [nsLookup_nsUpdate, nsLookup_nsUpdate]
  simp only [commandWf, Bool.and_eq_true, List.all_eq_true] at hwf
  have hdis := hwf.1.2 (k, carg) hk p hp
  rw [Bool.not_eq_eq_eq_not, Bool.not_true] at hdis
  have hkmem : k ∉ p.2.names := fun hmem => by
    rw [contains_mem.2 hmem] at hdis
    exact Bool.noConfusion hdis
  have hak : ¬ (a = k) := fun hak => hkmem (hak ▸ ha)
  have hbk : ¬ (b = k) := fun hbk => hkmem (hbk ▸ hb)
  rw [if_neg hak, if_neg hbk]
  exact h p hp a ha b hb

/-- Writing a switch fan-out keeps alias coherence: the written spec is a
table row, so any other spec has equal or disjoint names. -/
theorem aliasUniform_nsUpdateAll (cmd : Command) (ns : List (String × Value)) (al : String)
    (S : Argument) (v : Value) (hwf : commandWf cmd = true) (hS : (al, S) ∈ cmd.switches)
    (h : aliasUniform cmd ns) : aliasUniform cmd (nsUpdateAll ns S.names v) := by
  intro p hp a ha b hb
  rw [nsLookup_nsUpdateAll, nsLookup_nsUpdateAll]
  simp only [commandWf, Bool.and_eq_true, List.all_eq_true] at hwf
  have hpair := hwf.2 p hp (al, S) hS
  rw [Bool.or_eq_true] at hpair
  cases hpair with
  | inl heq =>
    have heq' : p.2.names = S.names := by simpa using heq
    have haS : S.names.contains a = true := contains_mem.2 (heq' ▸ ha)
    have hbS : S.names.contains b = true := contains_mem.2 (heq' ▸ hb)
    rw [haS, hbS]
    simp
  | inr hdis =>
    rw [List.all_eq_true] at hdis
    have haS : S.names.contains a = false := by
      have := hdis a ha
      rwa [Bool.not_eq_eq_eq_not, Bool.not_true] at this
    have hbS : S.names.contains b = false := by
      have := hdis b hb
      rwa [Bool.not_eq_eq_eq_not, Bool.not_true] at this
    rw [haS, hbS]
    simp only [Bool.false_eq_true, reduceIte]
    exact h p hp a ha b hb

/-- A successful resolution looked the returned spec up in the switch
table under the returned name. -/
theorem resolveToken_lookup (cmd : Command) (idx : Nat) (token input : String)
    (value : Option String) (arg : Argument) (fs : List Fault)
    (h : resolveToken cmd idx token = (some (input, value, arg), fs)) :
    alookup cmd.switches input = some arg := by
  unfold resolveToken at h
  cases hsp : splitShape token with
  | none => simp [hsp] at h
  | some iv =>
    obtain ⟨i, val⟩ := iv
    rw [hsp] at h
    cases hlk : alookup cmd.switches i with
    | none => simp [hlk] at h
    | some a =>
      simp only [hlk] at h
      have h1 : (some (i, val, a) : Option (String × Option String × Argument)) =
          some (input, value, arg) := congrArg Prod.fst h
      simp only [Option.some.injEq, Prod.mk.injEq] at h1
      obtain ⟨hi, -, ha⟩ := h1
      subst hi
      rw [hlk, ha]

/-- The shape of the namespace write of one loop-body application: a
cardinal writes its own key, an option or flag fans one value out over
its names. -/
theorem applyArgument_ns_shape (st : PState) (arg : Argument) (input : String)
    (value : Option String) :
    (arg.kind = .cardinal ∧ ∃ w, (applyArgument st arg input value).1.ns = nsUpdate st.ns input w) ∨
    (arg.kind ≠ .cardinal ∧ ∃ w, (applyArgument st arg input value).1.ns = nsUpdateAll st.ns arg.names w) := by
  unfold applyArgument
  cases hk : arg.kind
  case cardinal =>
    refine Or.inl ⟨rfl, ⟨(getValues arg input false st.tokens st.index).value, ?_⟩⟩
    simp only [hk, nsOfIte, handleArg_ns, ite_self]
  case option =>
    refine Or.inr ⟨by simp [hk], ?_⟩
    cases value with
    | none =>
      exact ⟨(getValues arg input false st.tokens st.index).value, by
        simp only [hk, nsOfIte, handleArg_ns, ite_self]⟩
    | some v =>
      by_cases hv : v = ""
      · exact ⟨(getValues arg input false st.tokens st.index).value, by
          simp only [hk, hv, reduceIte, nsOfIte, handleArg_ns, ite_self]⟩
      · exact ⟨(getValues arg input true (splitInline v) st.index).value, by
          simp only [hk, hv, reduceIte, nsOfIte, handleArg_ns, ite_self]⟩
  case flag =>
    refine Or.inr ⟨by simp [hk], ⟨.vBool true, ?_⟩⟩
    simp only [hk, nsOfIte, handleArg_ns, ite_self]

/-- The token loop keeps alias coherence of the namespace. -/
theorem parseLoop_uniform (cmd : Command) (fuel : Nat) (pending : List (String × Argument))
    (st : PState) (hwf : commandWf cmd = true) (hpend : ∀ p ∈ pending, p ∈ cmd.cardinals)
    (h : aliasUniform cmd st.ns) : aliasUniform cmd (parseLoop cmd fuel pending st).1.ns := by
  induction fuel generalizing pending st with
  | zero => simpa [parseLoop] using h
  | succ fuel ih =>
    rw [parseLoop]
    cases hT : st.tokens with
    | nil => simpa using h
    | cons token rest =>
      simp only
      split
      · rcases hres : resolveToken cmd st.index token with ⟨o, fs⟩
        cases o with
        | none => exact ih _ _ hpend h
        | some triple =>
          obtain ⟨input, value, arg⟩ := triple
          have hlk := resolveToken_lookup cmd st.index token input value arg fs hres
          have hrow := alookup_mem cmd.switches input arg hlk
          have hkind : arg.kind ≠ .cardinal := by
            have hwf' := hwf
            simp only [commandWf, Bool.and_eq_true, List.all_eq_true] at hwf'
            have := hwf'.1.1.2 (input, arg) hrow
            simpa using this
          have hnext : aliasUniform cmd (applyArgument
              { st with tokens := rest, faults := st.faults ++ fs } arg input value).1.ns := by
            rcases applyArgument_ns_shape { st with tokens := rest, faults := st.faults ++ fs }
                arg input value with ⟨hc, -⟩ | ⟨-, w, hw⟩
            · exact absurd hc hkind
            · rw [hw]
              exact aliasUniform_nsUpdateAll cmd st.ns input arg w hwf hrow h
          simp only
          split
          · exact hnext
          · exact ih _ _ hpend hnext
      · cases pending with
        | nil => exact ih _ _ (by simp) h
        | cons p pending' =>
          obtain ⟨k, carg⟩ := p
          have hrow : (k, carg) ∈ cmd.cardinals := hpend (k, carg) (List.mem_cons_self _ _)
          have hkind : carg.kind = .cardinal := by
            have hwf' := hwf
            simp only [commandWf, Bool.and_eq_true, List.all_eq_true] at hwf'
            have := hwf'.1.1.1 (k, carg) hrow
            simpa using this
          have hnext : aliasUniform cmd (applyArgument
              { st with tokens := token :: rest } carg k none).1.ns := by
            rcases applyArgument_ns_shape { st with tokens := token :: rest } carg k none with
              ⟨-, w, hw⟩ | ⟨hnc, -⟩
            · rw [hw]
              exact aliasUniform_nsUpdate cmd st.ns k carg w hwf hrow h
            · exact absurd hkind hnc
          have hpend' : ∀ p ∈ pending', p ∈ cmd.cardinals := by
            intro p hp
            exact hpend p (List.mem_cons_of_mem _ hp)
          simp only
          split
          · exact hnext
          · exact ih _ _ hpend' hnext

/-- C9: after any pass, the namespace maps every declared alias of one
switch spec to the same value — flags set every alias, options mirror the
converted value across all aliases — so lookups through any alias agree;
the fan-out writes of _parse_option and _parse_flag keep this invariant
at every parse step. -/
theorem claim_C9 (cmd : Command) (hwf : commandWf cmd = true) (tokens : List String)
    (index : Nat) (al : String) (S : Argument) (hS : alookup cmd.switches al = some S)
    (a : String) (ha : a ∈ S.names) (b : String) (hb : b ∈ S.names) :
    nsLookup (parseArgs cmd tokens index).1.ns a = nsLookup (parseArgs cmd tokens index).1.ns b := by
  have h0 : aliasUniform cmd ([] : List (String × Value)) := by
    intro p hp x hx y hy
    rfl
  have hloop := parseLoop_uniform cmd (tokens.length + cmd.cardinals.length + 1) cmd.cardinals
      ⟨tokens, index, [], [], [], [], []⟩ hwf (fun p hp => hp) h0
  have hrow := alookup_mem cmd.switches al S hS
  simp only [parseArgs]
  set out := parseLoop cmd (tokens.length + cmd.cardinals.length + 1) cmd.cardinals
      ⟨tokens, index, [], [], [], [], []⟩ with hout
  obtain ⟨st, pending, term⟩ := out
  have hst : aliasUniform cmd st.ns := hloop
  split
  · exact hst (al, S) hrow a ha b hb
  · split <;> simpa [sweepHandles_ns] using hst (al, S) hrow a ha b hb

/-- Witness for C9 on the verbose-flag command: after parsing, both
aliases of the flag read the same namespace entry. -/
theorem claim_C9_witness :
    nsLookup (parseArgs cmdVerbose ["--verbose"] 1).1.ns "--verbose" =
      nsLookup (parseArgs cmdVerbose ["--verbose"] 1).1.ns "-V" := by
  exact claim_C9 cmdVerbose (by decide) ["--verbose"] 1 "--verbose" verboseFlag rfl
    "--verbose" (by decide) "-V" (by decide)

/-- Command._handle leaves the token stream, ordinal and faults
untouched. -/
theorem handleArg_rest (st : PState) (a : Argument) (imm : Bool) :
    (handleArg st a imm).tokens = st.tokens ∧ (handleArg st a imm).index = st.index ∧
    (handleArg st a imm).faults = st.faults := by
  unfold handleArg
  split <;> exact ⟨rfl, rfl, rfl⟩

/-- The post-parse sweep leaves tokens and faults untouched. -/
theorem sweepHandles_rest (cmd : Command) (keys : List String) (st : PState) :
    (sweepHandles cmd keys st).tokens = st.tokens ∧
    (sweepHandles cmd keys st).faults = st.faults := by
  induction keys generalizing st with
  | nil => exact ⟨rfl, rfl⟩
  | cons k ks ih =>
    simp only [sweepHandles]
    cases alookup cmd.cardinals k with
    | some a =>
      obtain ⟨h1, h2⟩ := ih (handleArg st a false)
      obtain ⟨g1, -, g3⟩ := handleArg_rest st a false
      exact ⟨h1.trans g1, h2.trans g3⟩
    | none =>
      cases alookup cmd.switches k with
      | some a =>
        obtain ⟨h1, h2⟩ := ih (handleArg st a false)
        obtain ⟨g1, -, g3⟩ := handleArg_rest st a false
        exact ⟨h1.trans g1, h2.trans g3⟩
      | none => exact ih st

/-- One loop round over a switch-shaped token whose resolution fails:
the fault is recorded, the ordinal advances, the loop continues. -/
theorem parseLoop_step_badswitch (cmd : Command) (fuel : Nat)
    (pending : List (String × Argument)) (st : PState) (token : String) (rest : List String)
    (fs : List Fault) (hT : st.tokens = token :: rest) (hg : startsDash token = true)
    (hnr : pendingRemainder pending = false)
    (hres : resolveToken cmd st.index token = (none, fs)) :
    parseLoop cmd (fuel + 1) pending st =
      parseLoop cmd fuel pending
        { st with tokens := rest, index := st.index + 1, faults := st.faults ++ fs } := by
  rw [parseLoop]
  simp only [hT, hg, hnr, hres, Bool.not_false, Bool.and_self, if_true]

/-- One loop round over a resolved switch token: the body applies and,
without a terminator, the loop continues on the body output. -/
theorem parseLoop_step_switch (cmd : Command) (fuel : Nat)
    (pending : List (String × Argument)) (st : PState) (token input : String)
    (value : Option String) (arg : Argument) (rest : List String) (fs : List Fault)
    (hT : st.tokens = token :: rest) (hg : startsDash token = true)
    (hnr : pendingRemainder pending = false)
    (hres : resolveToken cmd st.index token = (some (input, value, arg), fs))
    (hterm : arg.terminator = false) :
    parseLoop cmd (fuel + 1) pending st =
      parseLoop cmd fuel pending
        (applyArgument { st with tokens := rest, faults := st.faults ++ fs } arg input value).1 := by
  rw [parseLoop]
  simp only [hT, hg, hnr, hres, Bool.not_false, Bool.and_self, if_true]
  have hsnd : (applyArgument { st with tokens := rest, faults := st.faults ++ fs }
      arg input value).2 = arg.terminator := rfl
  rw [hsnd, hterm]
  simp

/-- One loop round binding the token to the next pending positional: the
token is pushed back, the body applies and, without a terminator, the
loop continues on the body output. -/
theorem parseLoop_step_cardinal (cmd : Command) (fuel : Nat) (k : String) (carg : Argument)
    (pending' : List (String × Argument)) (st : PState) (token : String) (rest : List String)
    (hT : st.tokens = token :: rest)
    (hg : (startsDash token && !pendingRemainder ((k, carg) :: pending')) = false)
    (hterm : carg.terminator = false) :
    parseLoop cmd (fuel + 1) ((k, carg) :: pending') st =
      parseLoop cmd fuel pending'
        (applyArgument { st with tokens := token :: rest } carg k none).1 := by
  rw [parseLoop]
  simp only [hT, hg, Bool.false_eq_true, if_false]
  have hsnd : (applyArgument { st with tokens := token :: rest } carg k none).2 =
      carg.terminator := rfl
  rw [hsnd, hterm]
  simp

/-- Assembly of a full pass that ends with a drained token queue and
without a terminator: the final faults are the loop faults followed by
the missing-cardinal sweep, and the final namespace is the loop
namespace. -/
theorem parseArgs_assemble (cmd : Command) (tokens : List String) (index : Nat)
    (st' : PState) (pending' : List (String × Argument))
    (h : parseLoop cmd (tokens.length + cmd.cardinals.length + 1) cmd.cardinals
        ⟨tokens, index, [], [], [], [], []⟩ = (st', pending', false))
    (ht : st'.tokens = []) :
    (parseArgs cmd tokens index).1.faults = st'.faults ++ missingCardinalsFault pending' ∧
    (parseArgs cmd tokens index).1.ns = st'.ns := by
  simp only [parseArgs, h]
  obtain ⟨hswT, hswF⟩ := sweepHandles_rest cmd (nsKeys st'.ns) st'
  have hsw2 : (sweepHandles cmd (nsKeys st'.ns) st').tokens = [] := hswT.trans ht
  simp [hsw2, hswF, sweepHandles_ns]

/-- C7 counterexample: the verbose-flag command declares six aliases, yet
the unknown token of the shape two-dashes-q is reported with an empty
suggestion list and a hint that embeds no fuzzy-matched alias, because no
declared alias reaches the 0.6 similarity cutoff of difflib — refuting
the claim that one declared alias suffices for a suggestion. -/
theorem claim_C7_counterexample :
    cmdVerbose.switches.map Prod.fst =
      ["-h", "--help", "-v", "--version", "--verbose", "-V"] ∧
    (parseArgs cmdVerbose ["--q"] 1).1.faults =
      [⟨.unknownSwitch, 1, "--q", [], none⟩] := by
  decide

/-- C7 amended: every well-formed modifier-shaped token whose name is not
a declared alias makes the pass record exactly one UnknownSwitchError
carrying the difflib close matches over the declared aliases, and the
hint embeds a fuzzy-matched suggestion precisely when that close-match
list (similarity cutoff 0.6) is non-empty — merely declaring an alias
does not guarantee a suggestion. -/
theorem claim_C7 (cmd : Command) (token input : String) (val : Option String)
    (hcard : cmd.cardinals = []) (hdash : startsDash token = true)
    (hshape : splitShape token = some (input, val))
    (hunknown : alookup cmd.switches input = none) :
    (parseArgs cmd [token] 1).1.faults =
      [⟨.unknownSwitch, 1, input, getCloseMatches input (cmd.switches.map Prod.fst) 5,
        (getCloseMatches input (cmd.switches.map Prod.fst) 5).head?⟩] ∧
    ((getCloseMatches input (cmd.switches.map Prod.fst) 5).head?.isSome ↔
      getCloseMatches input (cmd.switches.map Prod.fst) 5 ≠ []) := by
  have hres : resolveToken cmd 1 token =
      (none, [⟨.unknownSwitch, 1, input, getCloseMatches input (cmd.switches.map Prod.fst) 5,
        (getCloseMatches input (cmd.switches.map Prod.fst) 5).head?⟩]) := by
    simp only [resolveToken, hshape, hunknown]
  have hnr : pendingRemainder cmd.cardinals = false := by
    rw [hcard]
    rfl
  have hstep := parseLoop_step_badswitch cmd ([token].length + cmd.cardinals.length)
      cmd.cardinals ⟨[token], 1, [], [], [], [], []⟩ token []
      [⟨.unknownSwitch, 1, input, getCloseMatches input (cmd.switches.map Prod.fst) 5,
        (getCloseMatches input (cmd.switches.map Prod.fst) 5).head?⟩]
      rfl hdash hnr hres
  have hloop : parseLoop cmd ([token].length + cmd.cardinals.length + 1) cmd.cardinals
      ⟨[token], 1, [], [], [], [], []⟩ =
      (⟨[], 2, [], [⟨.unknownSwitch, 1, input, getCloseMatches input (cmd.switches.map Prod.fst) 5,
          (getCloseMatches input (cmd.switches.map Prod.fst) 5).head?⟩], [], [], []⟩,
        cmd.cardinals, false) := by
    rw [hstep, parseLoop_nil cmd _ _ _ rfl]
    rfl
  obtain ⟨hf, -⟩ := parseArgs_assemble cmd [token] 1 _ _ hloop rfl
  constructor
  · rw [hf, hcard]
    simp [missingCardinalsFault]
  · cases getCloseMatches input (cmd.switches.map Prod.fst) 5 <;> simp

/-- Witness for C7: the misspelling two-dashes-verbos is unknown and gets
the suggestion two-dashes-verbose embedded in its hint, the close-match
list being non-empty. -/
theorem claim_C7_witness :
    (parseArgs cmdVerbose ["--verbos"] 1).1.faults =
      [⟨.unknownSwitch, 1, "--verbos",
        getCloseMatches "--verbos" (cmdVerbose.switches.map Prod.fst) 5,
        (getCloseMatches "--verbos" (cmdVerbose.switches.map Prod.fst) 5).head?⟩] ∧
    ((getCloseMatches "--verbos" (cmdVerbose.switches.map Prod.fst) 5).head?.isSome ↔
      getCloseMatches "--verbos" (cmdVerbose.switches.map Prod.fst) 5 ≠ []) :=
  claim_C7 cmdVerbose "--verbos" "--verbos" none rfl rfl rfl rfl

/-- Projection of a conditional state through index. -/
theorem indexOfIte (c : Prop) [Decidable c] (a b : PState) :
    (if c then a else b).index = if c then a.index else b.index := by
  split <;> rfl

/-- Projection of a conditional state through faults. -/
theorem faultsOfIte (c : Prop) [Decidable c] (a b : PState) :
    (if c then a else b).faults = if c then a.faults else b.faults := by
  split <;> rfl

/-- Command._handle leaves the ordinal untouched. -/
theorem handleArg_index (st : PState) (a : Argument) (imm : Bool) :
    (handleArg st a imm).index = st.index := by
  unfold handleArg
  split <;> rfl

/-- Command._handle leaves the faults untouched. -/
theorem handleArg_faults (st : PState) (a : Argument) (imm : Bool) :
    (handleArg st a imm).faults = st.faults := by
  unfold handleArg
  split <;> rfl

/-- An inline _getvalues keeps the ordinal anchored on the option name:
only the trailing option bump applies. -/
theorem getValues_inline_index (arg : Argument) (input : String) (toks : List String)
    (idx : Nat) :
    (getValues arg input true toks idx).index = idx + (if arg.kind = .option then 1 else 0) := by
  unfold getValues
  cases harity : arg.nargs
  case optional | single =>
    cases toks with
    | nil => simp
    | cons t ts =>
      by_cases hd : startsDash t <;> simp [hd]
  case zeroOrMore | oneOrMore | remainder => simp
  case fixed n => simp

/-- A spaced _getvalues facing a drained queue or a switch-shaped head
consumes nothing, for every non-greedy arity: the queue is returned
whole and only the option bump advances the ordinal. -/
theorem getValues_nodash (arg : Argument) (input : String) (toks : List String) (idx : Nat)
    (hrem : arg.nargs ≠ .remainder)
    (hT : toks = [] ∨ ∃ t rest, toks = t :: rest ∧ startsDash t = true) :
    (getValues arg input false toks idx).rest = toks ∧
    (getValues arg input false toks idx).index = idx + (if arg.kind = .option then 1 else 0) := by
  unfold getValues
  cases harity : arg.nargs
  case remainder => exact absurd harity hrem
  case optional | single =>
    rcases hT with hnil | ⟨t, rest, hcons, hd⟩
    · subst hnil
      constructor <;> simp
    · subst hcons
      constructor <;> simp [hd]
  case zeroOrMore | oneOrMore =>
    rcases hT with hnil | ⟨t, rest, hcons, hd⟩
    · subst hnil
      constructor <;> simp [takeVariadic, convertVariadic]
    · subst hcons
      constructor <;> simp [takeVariadic, convertVariadic, hd]
  case fixed n =>
    rcases hT with hnil | ⟨t, rest, hcons, hd⟩
    · subst hnil
      cases n <;> constructor <;> simp [takeFixed, convertVariadic]
    · subst hcons
      cases n <;> constructor <;> simp [takeFixed, convertVariadic, hd]

/-- The loop body over a switch spec (option or flag, never greedy) with
a drained or switch-headed queue: the queue survives whole, the ordinal
advances by exactly one (the switch token itself), and the namespace
receives the alias fan-out of one value. -/
theorem applyArgument_switch_parts (st : PState) (arg : Argument) (input : String)
    (value : Option String) (hk : arg.kind ≠ .cardinal) (hrem : arg.nargs ≠ .remainder)
    (hT : st.tokens = [] ∨ ∃ t rest, st.tokens = t :: rest ∧ startsDash t = true) :
    (applyArgument st arg input value).1.tokens = st.tokens ∧
    (applyArgument st arg input value).1.index = st.index + 1 ∧
    ∃ w, (applyArgument st arg input value).1.ns = nsUpdateAll st.ns arg.names w := by
  unfold applyArgument
  cases hkk : arg.kind
  case cardinal => exact absurd hkk hk
  case flag =>
    simp only [hkk, tokensOfIte, indexOfIte, nsOfIte, handleArg_tokens, handleArg_index,
      handleArg_ns, ite_self]
    exact ⟨by simp, by simp, ⟨.vBool true, by simp⟩⟩
  case option =>
    have hko : arg.kind = .option := hkk
    cases value with
    | none =>
      obtain ⟨hrest, hidx⟩ := getValues_nodash arg input st.tokens st.index hrem hT
      simp only [hkk, tokensOfIte, indexOfIte, nsOfIte, handleArg_tokens, handleArg_index,
        handleArg_ns, ite_self]
      refine ⟨by simp [hrest], ?_, ⟨(getValues arg input false st.tokens st.index).value, by simp⟩⟩
      rw [hidx, hko]
      simp
    | some v =>
      by_cases hv : v = ""
      · obtain ⟨hrest, hidx⟩ := getValues_nodash arg input st.tokens st.index hrem hT
        simp only [hkk, hv, reduceIte, tokensOfIte, indexOfIte, nsOfIte, handleArg_tokens,
          handleArg_index, handleArg_ns, ite_self]
        refine ⟨by simp [hrest], ?_, ⟨(getValues arg input false st.tokens st.index).value, by simp⟩⟩
        rw [hidx, hko]
        simp
      · have hidx := getValues_inline_index arg input (splitInline v) st.index
        simp only [hkk, hv, reduceIte, tokensOfIte, indexOfIte, nsOfIte, handleArg_tokens,
          handleArg_index, handleArg_ns, ite_self]
        refine ⟨by simp, ?_, ⟨(getValues arg input true (splitInline v) st.index).value, by simp⟩⟩
        rw [hidx, hko]
        simp

/-- The faults of one loop-body application extend the prior sink with
the deprecation warning, then the duplicate fault, then the branch
faults, in trigger order. -/
theorem applyArgument_faults_form (st : PState) (arg : Argument) (input : String)
    (value : Option String) :
    ∃ tail, (applyArgument st arg input value).1.faults =
      st.faults
        ++ (if arg.deprecated then [mkFault .deprecatedArgument st.index input] else [])
        ++ (if nsContains st.ns input then [mkFault .duplicatedSwitch st.index input] else [])
        ++ tail := by
  have h2 : ∀ (A C : List Fault), ∃ t, A ++ C = A ++ t := fun A C => ⟨C, rfl⟩
  have h3 : ∀ (A B C : List Fault), ∃ t, (A ++ B) ++ C = A ++ t :=
    fun A B C => ⟨B ++ C, by rw [List.append_assoc]⟩
  have h4 : ∀ (A B C D : List Fault), ∃ t, ((A ++ B) ++ C) ++ D = A ++ t :=
    fun A B C D => ⟨B ++ (C ++ D), by simp [List.append_assoc]⟩
  unfold applyArgument
  cases hkk : arg.kind
  case cardinal =>
    simp only [hkk, faultsOfIte, handleArg_faults, ite_self]
    exact h3 _ _ _
  case flag =>
    simp only [hkk, faultsOfIte, handleArg_faults, ite_self]
    exact h2 _ _
  case option =>
    cases value with
    | none =>
      simp only [hkk, faultsOfIte, handleArg_faults, ite_self]
      exact h4 _ _ _ _
    | some v =>
      by_cases hv : v = "" <;>
        simp only [hkk, hv, reduceIte, faultsOfIte, handleArg_faults, ite_self] <;>
        exact h4 _ _ _ _

/-- A duplicate key in the namespace makes one loop-body application
record the DuplicatedSwitchError at the current ordinal. -/
theorem applyArgument_dup_mem (st : PState) (arg : Argument) (input : String)
    (value : Option String) (h : nsContains st.ns input = true) :
    mkFault .duplicatedSwitch st.index input ∈ (applyArgument st arg input value).1.faults := by
  obtain ⟨tail, hf⟩ := applyArgument_faults_form st arg input value
  rw [hf]
  simp [h]

/-- A shaped token with a declared name resolves to its table spec. -/
theorem resolveToken_found (cmd : Command) (idx : Nat) (token input : String)
    (val : Option String) (F : Argument) (hs : splitShape token = some (input, val))
    (hl : alookup cmd.switches input = some F) :
    ∃ fs, resolveToken cmd idx token = (some (input, val, F), fs) := by
  refine ⟨match val with
    | some v =>
      (if F.kind = .option && v = "" then [mkFault .emptyOptionValue idx input] else [])
        ++ (if F.kind = .flag then [mkFault .flagAssignment idx input] else [])
    | none => [], ?_⟩
  simp only [resolveToken, hs, hl]
  cases val <;> rfl

/-- C6: two tokens resolving to the same option or flag spec — the same
alias twice or two different aliases of one spec — make the pass record
a DuplicatedSwitchError at the second occurrence (ordinal 2 here), since
the first resolution filled the namespace under every alias of the spec. -/
theorem claim_C6 (cmd : Command) (F : Argument) (t1 t2 a1 a2 : String) (v1 v2 : Option String)
    (hcard : cmd.cardinals = []) (hk : F.kind ≠ .cardinal) (hrem : F.nargs ≠ .remainder)
    (hterm : F.terminator = false) (hd1 : startsDash t1 = true) (hd2 : startsDash t2 = true)
    (hs1 : splitShape t1 = some (a1, v1)) (hs2 : splitShape t2 = some (a2, v2))
    (hl1 : alookup cmd.switches a1 = some F) (hl2 : alookup cmd.switches a2 = some F)
    (hmem : a2 ∈ F.names) :
    mkFault .duplicatedSwitch 2 a2 ∈ (parseArgs cmd [t1, t2] 1).1.faults := by
  have hnr : pendingRemainder cmd.cardinals = false := by
    rw [hcard]
    rfl
  obtain ⟨fs1, hres1⟩ := resolveToken_found cmd 1 t1 a1 v1 F hs1 hl1
  set st0 : PState := ⟨[t1, t2], 1, [], [], [], [], []⟩ with hst0
  set st1 : PState := { st0 with tokens := [t2], faults := st0.faults ++ fs1 } with hst1
  set st2 : PState := (applyArgument st1 F a1 v1).1 with hst2
  obtain ⟨h2T, h2I, w, h2N⟩ :=
    applyArgument_switch_parts st1 F a1 v1 hk hrem (Or.inr ⟨t2, [], rfl, hd2⟩)
  have h2I2 : st2.index = 2 := by
    rw [h2I]
  obtain ⟨fs2, hres2⟩ := resolveToken_found cmd st2.index t2 a2 v2 F hs2 hl2
  set st2' : PState := { st2 with tokens := [], faults := st2.faults ++ fs2 } with hst2'
  set st3 : PState := (applyArgument st2' F a2 v2).1 with hst3
  obtain ⟨h3T, -, -⟩ := applyArgument_switch_parts st2' F a2 v2 hk hrem (Or.inl rfl)
  have hcont : nsContains st2'.ns a2 = true := by
    have : st2'.ns = st2.ns := rfl
    rw [this, h2N]
    unfold nsContains
    rw [nsLookup_nsUpdateAll]
    rw [contains_mem.2 hmem]
    rfl
  have hdup := applyArgument_dup_mem st2' F a2 v2 hcont
  have hdup2 : mkFault .duplicatedSwitch 2 a2 ∈ st3.faults := by
    have hidx : st2'.index = 2 := h2I2
    rwa [hidx] at hdup
  have hloop : ∀ f : Nat, parseLoop cmd (f + 1 + 1) cmd.cardinals st0 =
      (st3, cmd.cardinals, false) := by
    intro f
    rw [parseLoop_step_switch cmd (f + 1) cmd.cardinals st0 t1 a1 v1 F [t2] fs1 rfl hd1 hnr
        hres1 hterm]
    rw [parseLoop_step_switch cmd f cmd.cardinals st2 t2 a2 v2 F [] fs2 h2T hd2 hnr hres2 hterm]
    exact parseLoop_nil cmd f cmd.cardinals st3 h3T
  have hfuel : [t1, t2].length + cmd.cardinals.length + 1 = 1 + 1 + 1 := by
    rw [hcard]
    rfl
  have hrun : parseLoop cmd ([t1, t2].length + cmd.cardinals.length + 1) cmd.cardinals
      ⟨[t1, t2], 1, [], [], [], [], []⟩ = (st3, cmd.cardinals, false) := by
    rw [hfuel, ← hst0]
    exact hloop 1
  obtain ⟨hf, -⟩ := parseArgs_assemble cmd [t1, t2] 1 st3 cmd.cardinals hrun h3T
  rw [hf, hcard]
  simp only [missingCardinalsFault, List.append_nil]
  exact hdup2

/-- Witness for C6 on the two-alias verbose flag, used once per alias. -/
theorem claim_C6_witness :
    mkFault .duplicatedSwitch 2 "-V" ∈ (parseArgs cmdVerbose ["--verbose", "-V"] 1).1.faults :=
  claim_C6 cmdVerbose verboseFlag "--verbose" "-V" "--verbose" "-V" none none rfl
    (by decide) (by decide) rfl rfl rfl rfl rfl rfl rfl (by decide)

/-- The greedy consumption loop takes every token, switch-shaped or not,
stripping each, and leaves nothing. -/
theorem takeVariadic_greedy (ts : List String) :
    takeVariadic true ts = (ts.map pyStrip, []) := by
  induction ts with
  | nil => rfl
  | cons t ts ih => simp [takeVariadic, ih]

/-- Writing back the element just read reproduces the list. -/
theorem set_read_back (pre : List String) (t : String) (rest : List String) :
    (pre ++ t :: rest).set pre.length t = pre ++ t :: rest := by
  induction pre with
  | nil => simp
  | cons p ps ih => simp [ih]

/-- The conversion walk under the identity converter with no empty
tokens rewrites every slot with its own value: the list survives whole
and no fault is recorded. -/
theorem convertVariadicGo_pure (anchor : Nat) (input : String) :
    ∀ (rest pre : List String) (fs : List Fault), (∀ t ∈ rest, t ≠ "") →
    convertVariadicGo (fun s => some s) anchor input (pre ++ rest) rest pre.length fs =
      (pre ++ rest, (pre ++ rest).length, fs) := by
  intro rest
  induction rest with
  | nil =>
    intro pre fs h
    simp [convertVariadicGo]
  | cons t rest ih =>
    intro pre fs h
    have ht : t ≠ "" := h t (List.mem_cons_self t rest)
    simp only [convertVariadicGo, ht, if_neg, reduceIte]
    rw [set_read_back]
    have hlen : pre.length + 1 = (pre ++ [t]).length := by simp
    have happ : pre ++ t :: rest = (pre ++ [t]) ++ rest := by simp
    rw [hlen, happ]
    exact ih (pre ++ [t]) fs (fun x hx => h x (List.mem_cons_of_mem t hx))

/-- convertVariadic under the identity converter with no empty tokens is
the identity with no faults. -/
theorem convertVariadic_pure (anchor : Nat) (input : String) (raw : List String)
    (h : ∀ t ∈ raw, t ≠ "") :
    convertVariadic (fun s => some s) anchor input raw = (raw, []) := by
  unfold convertVariadic
  have := convertVariadicGo_pure anchor input raw [] [] h
  simp only [List.nil_append, List.length_nil] at this
  rw [this]

/-- _getvalues for a Remainder cardinal with the default converter str,
no choices, and trimmed non-empty tokens: every remaining token is taken
verbatim, the queue drains, the ordinal advances once per token and no
fault is recorded. -/
theorem getValues_remainder_pure (c : Argument) (input : String) (toks : List String)
    (idx : Nat) (hnargs : c.nargs = .remainder) (hkind : c.kind = .cardinal)
    (hconv : c.conv = fun s => some s) (hch : c.choices = [])
    (htoks : ∀ t ∈ toks, pyStrip t = t ∧ t ≠ "") :
    getValues c input false toks idx = ⟨.vList toks, [], idx + toks.length, []⟩ := by
  have hmap : toks.map pyStrip = toks := by
    have h1 : toks.map pyStrip = toks.map id :=
      List.map_congr_left (fun t ht => (htoks t ht).1)
    simpa using h1
  have hne2 : ∀ t ∈ toks, t ≠ "" := fun t ht => (htoks t ht).2
  unfold getValues
  simp only [hnargs, hconv, hch, hkind, decide_True, takeVariadic_greedy, hmap]
  rw [convertVariadic_pure idx input toks hne2]
  simp [choiceFaultsVariadic]

/-- The loop body over a plain Remainder cardinal (default converter, no
choices, not deprecated, no scheduling flags, key not yet bound): it
swallows the whole queue verbatim into the namespace entry, records no
fault, advances the ordinal once per token, schedules the handler in
_waits and does not terminate. -/
theorem applyArgument_remainder (st : PState) (c : Argument) (k : String)
    (hnargs : c.nargs = .remainder) (hkind : c.kind = .cardinal)
    (hconv : c.conv = fun s => some s) (hch : c.choices = [])
    (hdep : c.deprecated = false) (hnw : c.nowait = false) (hsa : c.standalone = false)
    (hterm : c.terminator = false) (hdup : nsContains st.ns k = false)
    (htoks : ∀ t ∈ st.tokens, pyStrip t = t ∧ t ≠ "") :
    applyArgument st c k none =
      ({ st with
          tokens := [],
          index := st.index + st.tokens.length,
          ns := nsUpdate st.ns k (.vList st.tokens),
          faults := st.faults,
          waits := waitsSetdefault st.waits c.id k st.index }, false) := by
  unfold applyArgument
  simp only [hkind, hdep, hdup, hnw, hsa, hterm, Bool.false_eq_true, reduceIte, Bool.false_and,
    Bool.not_false, List.append_nil]
  rw [getValues_remainder_pure c k st.tokens st.index hnargs hkind hconv hch htoks]
  simp

/-- C5: when the next pending positional has Remainder (greedy) arity,
the token loop hands it every remaining token verbatim — switch-shaped
tokens included — so the queue drains completely, the namespace entry
holds exactly the remaining tokens, and no fault of any kind (in
particular no switch-resolution fault) is recorded; the loop then
finishes the pass normally. -/
theorem claim_C5 (cmd : Command) (fuel : Nat) (pending' : List (String × Argument))
    (st : PState) (k : String) (c : Argument)
    (hnargs : c.nargs = .remainder) (hkind : c.kind = .cardinal)
    (hconv : c.conv = fun s => some s) (hch : c.choices = [])
    (hdep : c.deprecated = false) (hnw : c.nowait = false) (hsa : c.standalone = false)
    (hterm : c.terminator = false) (hdup : nsContains st.ns k = false)
    (htoks : ∀ t ∈ st.tokens, pyStrip t = t ∧ t ≠ "") (hne : st.tokens ≠ []) :
    parseLoop cmd (fuel + 1) ((k, c) :: pending') st =
      ({ st with
          tokens := [],
          index := st.index + st.tokens.length,
          ns := nsUpdate st.ns k (.vList st.tokens),
          faults := st.faults,
          waits := waitsSetdefault st.waits c.id k st.index }, pending', false) := by
  obtain ⟨t, rest, hT⟩ : ∃ t rest, st.tokens = t :: rest := by
    cases hc : st.tokens with
    | nil => exact absurd hc hne
    | cons t rest => exact ⟨t, rest, rfl⟩
  have hg : (startsDash t && !pendingRemainder ((k, c) :: pending')) = false := by
    simp [pendingRemainder, hnargs]
  rw [parseLoop_step_cardinal cmd fuel k c pending' st t rest hT hg hterm]
  have hstate : ({ st with tokens := t :: rest } : PState) = st := by
    rw [← hT]
  rw [hstate]
  rw [applyArgument_remainder st c k hnargs hkind hconv hch hdep hnw hsa hterm hdup htoks]
  exact parseLoop_nil cmd fuel pending' _ rfl

/-- Witness for C5 on a command with one Remainder positional and a
queue holding a plain value and two switch-shaped tokens. -/
theorem claim_C5_witness :
    parseLoop cmdRemainderCardinal 4 [("rest", mkCardinal 10 .remainder .vNone)]
        ⟨["a", "-b", "--c"], 1, [], [], [], [], []⟩ =
      (⟨[], 4, [("rest", .vList ["a", "-b", "--c"])], [], [], [(10, "rest", 1)], []⟩,
        [], false) := by
  have h := claim_C5 cmdRemainderCardinal 3 [] ⟨["a", "-b", "--c"], 1, [], [], [], [], []⟩
      "rest" (mkCardinal 10 .remainder .vNone) rfl rfl rfl rfl rfl rfl rfl rfl (by decide)
      (by decide) (by decide)
  simpa using h

/-- C2 counterexample: with flagA declared before flagB and the tokens
naming flagB first, the post-parse sweep invokes flagB before flagA, the
reverse of the declaration order, refuting the declaration-order claim. -/
theorem claim_C2_counterexample :
    (parseArgs cmdAB ["--b", "--a"] 1).1.events = [flagB.id, flagA.id] ∧
    declarationOrder cmdAB = [helpFlag.id, versionFlag.id, flagA.id, flagB.id] ∧
    [flagB.id, flagA.id] ≠ [flagA.id, flagB.id] := by
  decide

/-- Unfolding of splitAtEq one character at a time, usable when the head
is a variable (the literal equals-sign pattern of the match becomes an
explicit test). -/
theorem splitAtEq_cons (c : Char) (rest : List Char) :
    splitAtEq (c :: rest) =
      if c = '=' then ([], some rest)
      else ((splitAtEq rest).1.cons c, (splitAtEq rest).2) := by
  by_cases hc : c = '='
  · subst hc
    simp [splitAtEq]
  · simp [splitAtEq, hc]

/-- A token that splitShape maps to itself with no inline value contains
no equals sign (splitAtEq returns it whole) and has a well-shaped name. -/
theorem splitShape_plain (a : String) (h : splitShape a = some (a, none)) :
    splitAtEq a.data = (a.data, none) ∧ nameShapeOk a.data = true := by
  unfold splitShape at h
  rcases hsp : splitAtEq a.data with ⟨n, v⟩
  rw [hsp] at h
  by_cases hn : nameShapeOk n = true
  · simp only [hn, if_true] at h
    cases v with
    | none =>
      simp only [Option.some.injEq, Prod.mk.injEq, and_true] at h
      have hn2 : n = a.data := congrArg String.data h
      subst hn2
      exact ⟨rfl, hn⟩
    | some val =>
      by_cases hv : valueShapeOk val = true <;> simp [hv] at h
  · simp [hn] at h

/-- Appending an equals sign and a value to an equals-free prefix splits
exactly at the appended sign. -/
theorem splitAtEq_no_eq (x y : List Char) (hx : splitAtEq x = (x, none)) :
    splitAtEq (x ++ '=' :: y) = (x, some y) := by
  induction x with
  | nil => rfl
  | cons c x ih =>
    rw [splitAtEq_cons] at hx
    by_cases hc : c = '='
    · rw [if_pos hc] at hx
      exact absurd (congrArg Prod.snd hx) (by simp)
    · rw [if_neg hc] at hx
      have h1 : (splitAtEq x).1 = x := by
        have := congrArg Prod.fst hx
        simpa using this
      have h2 : (splitAtEq x).2 = none := congrArg Prod.snd hx
      have hx' : splitAtEq x = (x, none) := by
        rcases hsp : splitAtEq x with ⟨n, w⟩
        rw [hsp] at h1 h2
        simp only at h1 h2
        rw [h1, h2]
      rw [List.cons_append, splitAtEq_cons, if_neg hc, ih hx']

/-- The token built from a well-shaped plain name, an equals sign and a
well-shaped value matches as that name with that inline value. -/
theorem splitShape_inline (a v : String) (hsp : splitAtEq a.data = (a.data, none))
    (hname : nameShapeOk a.data = true) (hv : valueShapeOk v.data = true) :
    splitShape (a ++ "=" ++ v) = some (a, some v) := by
  unfold splitShape
  have hd : (a ++ "=" ++ v).data = a.data ++ '=' :: v.data := by
    rw [String.data_append, String.data_append]
    simp
  rw [hd, splitAtEq_no_eq a.data v.data hsp]
  simp [hname, hv]

/-- A dash-leading string keeps its leading dash under appending. -/
theorem startsDash_append (a b : String) (h : startsDash a = true) :
    startsDash (a ++ b) = true := by
  unfold startsDash at h ⊢
  rw [String.data_append]
  cases hd : a.data with
  | nil => rw [hd] at h; simp at h
  | cons c rest =>
    rw [hd] at h
    by_cases hc : c = '-'
    · subst hc
      rfl
    · exfalso
      simp [hc] at h

/-- Single-arity consumption of a plain head token: the stored value is
the converted stripped token (the raw stripped token when the converter
declines), the rest of the stream survives, and neither depends on the
inline flag (lines 1788-1817 of _getvalues run identically on the parts
list of an inline value and on the main queue). -/
theorem getValues_single_parts (arg : Argument) (input : String) (inline : Bool)
    (v : String) (rest : List String) (idx : Nat)
    (hn : arg.nargs = .single) (hd : startsDash v = false) :
    (getValues arg input inline (v :: rest) idx).value =
      .vStr ((arg.conv (pyStrip v)).getD (pyStrip v)) ∧
    (getValues arg input inline (v :: rest) idx).rest = rest := by
  unfold getValues
  simp only [hn, hd]
  rcases hconv : arg.conv (pyStrip v) with - | w <;> simp [hconv]

/-- The loop body over an option with a non-empty inline value: the
namespace receives the alias fan-out of the inline _getvalues value and
the main queue is untouched. -/
theorem applyArgument_option_inline (st : PState) (arg : Argument) (input v : String)
    (hk : arg.kind = .option) (hv : v ≠ "") :
    (applyArgument st arg input (some v)).1.ns =
      nsUpdateAll st.ns arg.names (getValues arg input true (splitInline v) st.index).value ∧
    (applyArgument st arg input (some v)).1.tokens = st.tokens := by
  unfold applyArgument
  simp only [hk, hv, reduceIte, nsOfIte, tokensOfIte, handleArg_ns, handleArg_tokens, ite_self]
  exact ⟨trivial, trivial⟩

/-- The loop body over an option without an inline value: the namespace
receives the alias fan-out of the spaced _getvalues value and the queue
shrinks to the _getvalues leftover. -/
theorem applyArgument_option_spaced (st : PState) (arg : Argument) (input : String)
    (hk : arg.kind = .option) :
    (applyArgument st arg input none).1.ns =
      nsUpdateAll st.ns arg.names (getValues arg input false st.tokens st.index).value ∧
    (applyArgument st arg input none).1.tokens =
      (getValues arg input false st.tokens st.index).rest := by
  unfold applyArgument
  simp only [hk, nsOfIte, tokensOfIte, handleArg_ns, handleArg_tokens, ite_self]
  exact ⟨trivial, trivial⟩

/-- One loop round over a resolved terminator switch: the body applies
and the loop stops at once, reporting the terminated pass. -/
theorem parseLoop_step_switch_term (cmd : Command) (fuel : Nat)
    (pending : List (String × Argument)) (st : PState) (token input : String)
    (value : Option String) (arg : Argument) (rest : List String) (fs : List Fault)
    (hT : st.tokens = token :: rest) (hg : startsDash token = true)
    (hnr : pendingRemainder pending = false)
    (hres : resolveToken cmd st.index token = (some (input, value, arg), fs))
    (hterm : arg.terminator = true) :
    parseLoop cmd (fuel + 1) pending st =
      ((applyArgument { st with tokens := rest, faults := st.faults ++ fs } arg input value).1,
        pending, true) := by
  rw [parseLoop]
  simp only [hT, hg, hnr, hres, Bool.not_false, Bool.and_self, if_true]
  have hsnd : (applyArgument { st with tokens := rest, faults := st.faults ++ fs }
      arg input value).2 = arg.terminator := rfl
  rw [hsnd, hterm]
  simp

/-- A pass whose token loop ends on a terminator returns the loop state
as is, skipping the sweeps. -/
theorem parseArgs_term (cmd : Command) (tokens : List String) (index : Nat)
    (st' : PState) (pending' : List (String × Argument))
    (h : parseLoop cmd (tokens.length + cmd.cardinals.length + 1) cmd.cardinals
        ⟨tokens, index, [], [], [], [], []⟩ = (st', pending', true)) :
    (parseArgs cmd tokens index).1 = st' := by
  simp only [parseArgs, h]
  simp

/-- C4 counterexample: on the single-arity option at alias two-dashes-opt,
the inline token with value a-comma-b stores only the first comma-split
part while the spaced form stores the whole value, so the two passes end
with different namespaces — refuting the round-trip claim for every value
string (line 2541 splits a multi-valued inline payload on the path
separator or the comma even for single-arity options). -/
theorem claim_C4_counterexample :
    nsLookup (parseArgs cmdOpt ["--opt=a,b"] 1).1.ns "--opt" = some (.vStr "a") ∧
    nsLookup (parseArgs cmdOpt ["--opt", "a,b"] 1).1.ns "--opt" = some (.vStr "a,b") ∧
    (parseArgs cmdOpt ["--opt=a,b"] 1).1.ns ≠ (parseArgs cmdOpt ["--opt", "a,b"] 1).1.ns := by
  decide

/-- C4 amended: for a command without positionals, a single-arity option
declared at a well-shaped plain alias, and a non-empty value that is not
dash-leading, carries no carriage return or newline and contains no colon
and no comma (the inline splitter returns it whole), parsing the inline
token alias-equals-value and parsing the two spaced tokens produce the
same namespace — the round trip holds once the value avoids the inline
multi-value separators that the counterexample exploits. -/
theorem claim_C4 (cmd : Command) (opt : Argument) (a v : String)
    (hcard : cmd.cardinals = [])
    (hk : opt.kind = .option) (hn : opt.nargs = .single)
    (hshape : splitShape a = some (a, none)) (hda : startsDash a = true)
    (hl : alookup cmd.switches a = some opt)
    (hv0 : v ≠ "") (hvd : startsDash v = false)
    (hsplit : splitInline v = [v]) (hvshape : valueShapeOk v.data = true) :
    (parseArgs cmd [a ++ "=" ++ v] 1).1.ns = (parseArgs cmd [a, v] 1).1.ns := by
  have hnr : pendingRemainder cmd.cardinals = false := by
    rw [hcard]
    rfl
  obtain ⟨hsp, hname⟩ := splitShape_plain a hshape
  have hs1 : splitShape (a ++ "=" ++ v) = some (a, some v) :=
    splitShape_inline a v hsp hname hvshape
  have hd1 : startsDash (a ++ "=" ++ v) = true :=
    startsDash_append (a ++ "=") v (startsDash_append a "=" hda)
  obtain ⟨fs1, hres1⟩ := resolveToken_found cmd 1 (a ++ "=" ++ v) a (some v) opt hs1 hl
  obtain ⟨fs2, hres2⟩ := resolveToken_found cmd 1 a a none opt hshape hl
  obtain ⟨hval1, -⟩ := getValues_single_parts opt a true v [] 1 hn hvd
  obtain ⟨hval2, hrest2⟩ := getValues_single_parts opt a false v [] 1 hn hvd
  set st0a : PState := ⟨[a ++ "=" ++ v], 1, [], [], [], [], []⟩ with hst0a
  set st1a : PState := { st0a with tokens := [], faults := st0a.faults ++ fs1 } with hst1a
  set st2a : PState := (applyArgument st1a opt a (some v)).1 with hst2a
  obtain ⟨h2aN, h2aT⟩ := applyArgument_option_inline st1a opt a v hk hv0
  have hns1a : st1a.ns = [] := rfl
  have hidx1a : st1a.index = 1 := rfl
  rw [hns1a, hidx1a, hsplit, hval1] at h2aN
  have h2aT' : st2a.tokens = [] := h2aT
  set st0b : PState := ⟨[a, v], 1, [], [], [], [], []⟩ with hst0b
  set st1b : PState := { st0b with tokens := [v], faults := st0b.faults ++ fs2 } with hst1b
  set st2b : PState := (applyArgument st1b opt a none).1 with hst2b
  obtain ⟨h2bN, h2bT⟩ := applyArgument_option_spaced st1b opt a hk
  have hns1b : st1b.ns = [] := rfl
  have hidx1b : st1b.index = 1 := rfl
  have htok1b : st1b.tokens = [v] := rfl
  rw [hns1b, hidx1b, htok1b, hval2] at h2bN
  rw [htok1b, hidx1b, hrest2] at h2bT
  have hnseq : st2a.ns = st2b.ns := by
    rw [h2aN, h2bN]
  cases hterm : opt.terminator with
  | true =>
    have hloopa : parseLoop cmd ([a ++ "=" ++ v].length + cmd.cardinals.length + 1)
        cmd.cardinals st0a = (st2a, cmd.cardinals, true) := by
      rw [parseLoop_step_switch_term cmd ([a ++ "=" ++ v].length + cmd.cardinals.length)
          cmd.cardinals st0a (a ++ "=" ++ v) a (some v) opt [] fs1 rfl hd1 hnr hres1 hterm]
    have hloopb : parseLoop cmd ([a, v].length + cmd.cardinals.length + 1)
        cmd.cardinals st0b = (st2b, cmd.cardinals, true) := by
      rw [parseLoop_step_switch_term cmd ([a, v].length + cmd.cardinals.length)
          cmd.cardinals st0b a a none opt [v] fs2 rfl hda hnr hres2 hterm]
    have hpa := parseArgs_term cmd [a ++ "=" ++ v] 1 st2a cmd.cardinals hloopa
    have hpb := parseArgs_term cmd [a, v] 1 st2b cmd.cardinals hloopb
    rw [hpa, hpb]
    exact hnseq
  | false =>
    have hloopa : parseLoop cmd ([a ++ "=" ++ v].length + cmd.cardinals.length + 1)
        cmd.cardinals st0a = (st2a, cmd.cardinals, false) := by
      rw [parseLoop_step_switch cmd ([a ++ "=" ++ v].length + cmd.cardinals.length)
          cmd.cardinals st0a (a ++ "=" ++ v) a (some v) opt [] fs1 rfl hd1 hnr hres1 hterm]
      exact parseLoop_nil cmd _ cmd.cardinals st2a h2aT'
    have hloopb : parseLoop cmd ([a, v].length + cmd.cardinals.length + 1)
        cmd.cardinals st0b = (st2b, cmd.cardinals, false) := by
      rw [parseLoop_step_switch cmd ([a, v].length + cmd.cardinals.length)
          cmd.cardinals st0b a a none opt [v] fs2 rfl hda hnr hres2 hterm]
      exact parseLoop_nil cmd _ cmd.cardinals st2b h2bT
    obtain ⟨-, hnsa⟩ := parseArgs_assemble cmd [a ++ "=" ++ v] 1 st2a cmd.cardinals hloopa h2aT'
    obtain ⟨-, hnsb⟩ := parseArgs_assemble cmd [a, v] 1 st2b cmd.cardinals hloopb h2bT
    rw [hnsa, hnsb]
    exact hnseq

/-- Witness for C4: the inline and the spaced spelling of the separator-free
value val on the single-arity option yield the same namespace. -/
theorem claim_C4_witness :
    (parseArgs cmdOpt ["--opt=val"] 1).1.ns = (parseArgs cmdOpt ["--opt", "val"] 1).1.ns :=
  claim_C4 cmdOpt optSingle "--opt" "val" rfl rfl rfl (by decide) (by decide) rfl
    (by decide) (by decide) (by decide) (by decide)

end Argonaut
